import Mathlib

/-!
# Hermes2D: assembling caches, API parameters, sparse structure and multimesh tree

A shallow embedding of the parts of Hermes2D that the properties below are about:

* `DiscreteProblem::AssemblingCaches` (`hermes2d/include/discrete_problem.h`): the cache keys
  `KeyConst` / `KeyNonConst` and their comparison functors `CompareConst` / `CompareNonConst`;
* `Api2D` (`hermes2d/src/api2d.cpp`): the parameter table with `get_param_value` and
  `set_param_value`;
* `std::map`: for the parameter table of `Api2D`, whose comparison is a strict weak ordering,
  through the contract of `find` and `insert` that the C++ standard gives (`StdMap`); for the
  caches ordered by `CompareConst`, through the descent in the search tree that `find` and
  `insert` perform (`RbTree`);
* the sparse structure builder and the multimesh neighbor tree, whose bodies are not part of the
  sources at hand and are modelled from the design document.

Machine integers are `Int` (`int`) and `Nat` (`unsigned int`): the code only copies and compares
them, so no arithmetic can overflow.
-/

namespace Hermes2D

/-! ## `double` as seen by `<` and `>` -/

/-- An IEEE-754 `double`, as far as the comparison operators can tell values apart: the NaN, the
two infinities, the negative zero, and the finite values (`finite 0` is `+0.0`). Every finite
double is a rational number, so `ℚ` holds them all. -/
inductive Double where
  | nan
  | negInf
  | posInf
  | negZero
  | finite (q : ℚ)
  deriving DecidableEq

namespace Double

/-- The number a finite double (or a zero) stands for. -/
def toRat : Double → ℚ
  | finite q => q
  | _ => 0

/-- The C++ `x < y` on doubles: false as soon as one side is NaN, otherwise the order of the
extended number line, on which `-0.0` and `+0.0` are the same point. -/
def lt : Double → Double → Bool
  | nan, _ => false
  | _, nan => false
  | negInf, negInf => false
  | negInf, _ => true
  | _, negInf => false
  | posInf, _ => false
  | _, posInf => true
  | x, y => decide (x.toRat < y.toRat)

/-- The C++ `x > y` on doubles, which IEEE-754 defines as `y < x`. -/
def gt (x y : Double) : Bool := lt y x

/-- The C++ `x == y` on doubles: false as soon as one side is NaN, otherwise equality of the
numbers (`-0.0 == +0.0` holds). -/
def eq : Double → Double → Bool
  | nan, _ => false
  | _, nan => false
  | negInf, negInf => true
  | negInf, _ => false
  | _, negInf => false
  | posInf, posInf => true
  | posInf, _ => false
  | _, posInf => false
  | x, y => decide (x.toRat = y.toRat)

/-- The point of the extended number line a double stands for (`⊥` is `-∞`, `⊤` is `+∞`); the
NaN stands for no point and is sent to `0` by convention. Used to reason about `lt` and `eq`. -/
def toExt : Double → WithBot (WithTop ℚ)
  | negInf => ⊥
  | posInf => ((⊤ : WithTop ℚ) : WithBot (WithTop ℚ))
  | x => ((x.toRat : WithTop ℚ) : WithBot (WithTop ℚ))

end Double

/-! ## The cache keys and their comparison functors -/

/-- The C++ `double2x2`, a `double[2][2]`: entry `eIJ` is `[I][J]`. -/
structure Double2x2 where
  e00 : Double
  e01 : Double
  e10 : Double
  e11 : Double
  deriving DecidableEq

/-- The struct `AssemblingCaches::KeyConst`: key of the cache for elements with a constant
Jacobian. -/
structure KeyConst where
  index : Int
  order : Int
  sub_idx : Nat
  shapeset_type : Int
  inv_ref_map : Double2x2
  deriving DecidableEq

/-- The constructor `KeyConst::KeyConst`: it copies its four scalar arguments and the four entries
of the matrix it is given. -/
def KeyConst.new (index order : Int) (sub_idx : Nat) (shapeset_type : Int)
    (inv_ref_map : Double2x2) : KeyConst where
  index := index
  order := order
  sub_idx := sub_idx
  shapeset_type := shapeset_type
  inv_ref_map :=
    { e00 := inv_ref_map.e00
      e01 := inv_ref_map.e01
      e10 := inv_ref_map.e10
      e11 := inv_ref_map.e11 }

/-- The functor `AssemblingCaches::CompareConst::operator()`, branch by branch. -/
def CompareConst (a b : KeyConst) : Bool :=
  if Double.lt a.inv_ref_map.e00 b.inv_ref_map.e00 then true
  else if Double.gt a.inv_ref_map.e00 b.inv_ref_map.e00 then false
  else
    if Double.lt a.inv_ref_map.e01 b.inv_ref_map.e01 then true
    else if Double.gt a.inv_ref_map.e01 b.inv_ref_map.e01 then false
    else
      if Double.lt a.inv_ref_map.e10 b.inv_ref_map.e10 then true
      else if Double.gt a.inv_ref_map.e10 b.inv_ref_map.e10 then false
      else
        if Double.lt a.inv_ref_map.e11 b.inv_ref_map.e11 then true
        else if Double.gt a.inv_ref_map.e11 b.inv_ref_map.e11 then false
        else
          if a.index < b.index then true
          else if a.index > b.index then false
          else
            if a.order < b.order then true
            else if a.order > b.order then false
            else
              if a.sub_idx < b.sub_idx then true
              else if a.sub_idx > b.sub_idx then false
              else
                if a.shapeset_type < b.shapeset_type then true
                else false

/-- The struct `AssemblingCaches::KeyNonConst`: key of the cache for elements with a non-constant
Jacobian. -/
structure KeyNonConst where
  index : Int
  order : Int
  sub_idx : Nat
  shapeset_type : Int
  deriving DecidableEq

/-- The constructor `KeyNonConst::KeyNonConst`. -/
def KeyNonConst.new (index order : Int) (sub_idx : Nat) (shapeset_type : Int) : KeyNonConst where
  index := index
  order := order
  sub_idx := sub_idx
  shapeset_type := shapeset_type

/-- The functor `AssemblingCaches::CompareNonConst::operator()`, branch by branch. -/
def CompareNonConst (a b : KeyNonConst) : Bool :=
  if a.index < b.index then true
  else if a.index > b.index then false
  else
    if a.order < b.order then true
    else if a.order > b.order then false
    else
      if a.sub_idx < b.sub_idx then true
      else if a.sub_idx > b.sub_idx then false
      else
        if a.shapeset_type < b.shapeset_type then true
        else false

/-- No entry of the inverse mapping of the key is a NaN. -/
def KeyConst.noNaN (a : KeyConst) : Prop :=
  a.inv_ref_map.e00 ≠ Double.nan ∧ a.inv_ref_map.e01 ≠ Double.nan ∧
    a.inv_ref_map.e10 ≠ Double.nan ∧ a.inv_ref_map.e11 ≠ Double.nan

instance (a : KeyConst) : Decidable a.noNaN := by
  unfold KeyConst.noNaN; infer_instance

/-- The lexicographic order on the 8-tuples
`(inv_ref_map[0][0], inv_ref_map[0][1], inv_ref_map[1][0], inv_ref_map[1][1], index, order,
sub_idx, shapeset_type)`, written out: the first field in which the two tuples differ decides.
On the doubles "smaller" is `<` and "the same" is `==`. -/
def KeyConst.lexLess (a b : KeyConst) : Prop :=
  Double.lt a.inv_ref_map.e00 b.inv_ref_map.e00 = true ∨
  (Double.eq a.inv_ref_map.e00 b.inv_ref_map.e00 = true ∧
  (Double.lt a.inv_ref_map.e01 b.inv_ref_map.e01 = true ∨
  (Double.eq a.inv_ref_map.e01 b.inv_ref_map.e01 = true ∧
  (Double.lt a.inv_ref_map.e10 b.inv_ref_map.e10 = true ∨
  (Double.eq a.inv_ref_map.e10 b.inv_ref_map.e10 = true ∧
  (Double.lt a.inv_ref_map.e11 b.inv_ref_map.e11 = true ∨
  (Double.eq a.inv_ref_map.e11 b.inv_ref_map.e11 = true ∧
  (a.index < b.index ∨ (a.index = b.index ∧
  (a.order < b.order ∨ (a.order = b.order ∧
  (a.sub_idx < b.sub_idx ∨ (a.sub_idx = b.sub_idx ∧
  a.shapeset_type < b.shapeset_type)))))))))))))

/-- All eight fields of the two keys are equal, the doubles in the sense of `==`. -/
def KeyConst.fieldsEqual (a b : KeyConst) : Prop :=
  Double.eq a.inv_ref_map.e00 b.inv_ref_map.e00 = true ∧
  Double.eq a.inv_ref_map.e01 b.inv_ref_map.e01 = true ∧
  Double.eq a.inv_ref_map.e10 b.inv_ref_map.e10 = true ∧
  Double.eq a.inv_ref_map.e11 b.inv_ref_map.e11 = true ∧
  a.index = b.index ∧ a.order = b.order ∧ a.sub_idx = b.sub_idx ∧
  a.shapeset_type = b.shapeset_type

/-- The lexicographic order on the 4-tuples `(index, order, sub_idx, shapeset_type)`, written
out, with `index`, `order`, `shapeset_type` in `ℤ` (signed) and `sub_idx` in `ℕ` (unsigned). -/
def KeyNonConst.lexLess (a b : KeyNonConst) : Prop :=
  a.index < b.index ∨ (a.index = b.index ∧
  (a.order < b.order ∨ (a.order = b.order ∧
  (a.sub_idx < b.sub_idx ∨ (a.sub_idx = b.sub_idx ∧
  a.shapeset_type < b.shapeset_type)))))

/-- Exactly one of three propositions holds. -/
def ExactlyOne (A B C : Prop) : Prop :=
  (A ∨ B ∨ C) ∧ ¬(A ∧ B) ∧ ¬(A ∧ C) ∧ ¬(B ∧ C)

/-- All four fields of the two keys are equal. -/
def KeyNonConst.fieldsEqual (a b : KeyNonConst) : Prop :=
  a.index = b.index ∧ a.order = b.order ∧ a.sub_idx = b.sub_idx ∧
  a.shapeset_type = b.shapeset_type

/-! ## `std::map` -/

/-- A `std::map<K, V, Compare>` whose comparison object is a strict weak ordering, as the C++
standard specifies it: a collection of entries in which `find` and `insert` identify keys up to
the equivalence that the comparison object induces. The entries are kept in the order of their
insertion. This is what the container does only under a strict weak ordering, as `std::less` on
the enumeration `Hermes2DApiParam` is; it is used for the table of `Api2D` alone. For a
comparison that is no strict weak ordering (`CompareConst` on keys with a NaN) the descent in
the tree decides, see `RbTree`. -/
abbrev StdMap (K V : Type) := List (K × V)

namespace StdMap

variable {K V : Type}

/-- Equivalence of keys under the comparison object: `!comp(a, b) && !comp(b, a)`. -/
def equiv (comp : K → K → Bool) (a b : K) : Bool := !comp a b && !comp b a

/-- The entry `std::map::find` returns for the key `k`: one whose key is equivalent to `k`, or
none (`end()`). -/
def findEntry (comp : K → K → Bool) (m : StdMap K V) (k : K) : Option (K × V) :=
  List.find? (fun e => equiv comp e.1 k) m

/-- The mapped value `find(k)->second`, when `find(k) != end()`. -/
def find (comp : K → K → Bool) (m : StdMap K V) (k : K) : Option V :=
  (findEntry comp m k).map Prod.snd

/-- The call `std::map::insert(std::pair(k, v))`: the entry is added if and only if the map holds
no entry with a key equivalent to `k`. -/
def insert (comp : K → K → Bool) (m : StdMap K V) (k : K) (v : V) : StdMap K V :=
  if (findEntry comp m k).isSome then m else m ++ [(k, v)]

/-- An assignment through `find(k)->second`: the mapped value of the entry that `find` returns is
replaced by its image under `f`; nothing happens when there is no such entry. -/
def modify (comp : K → K → Bool) (m : StdMap K V) (k : K) (f : V → V) : StdMap K V :=
  match m with
  | [] => []
  | e :: es => if equiv comp e.1 k then (e.1, f e.2) :: es else e :: modify comp es k f

end StdMap

/-! ## `std::map` as a search tree -/

/-- The tree behind a `std::map<K, V, Compare>` (the `_Rb_tree` of libstdc++): `nil` is the null
link, a node holds its left subtree, its key, its mapped value and its right subtree. The colour
of a node is left out: neither `find` nor the search for the insert position reads it. -/
inductive RbTree (K V : Type) where
  | nil
  | node (left : RbTree K V) (key : K) (value : V) (right : RbTree K V)
  deriving DecidableEq

namespace RbTree

variable {K V : Type}

/-- The entries of the tree from `begin()` to `end()` (in-order). -/
def toList : RbTree K V → List (K × V)
  | nil => []
  | node l k v r => toList l ++ (k, v) :: toList r

/-- The loop of `_Rb_tree::_M_lower_bound(x, y, k)`: `while (x != 0) if (!comp(key(x), k)) y = x,
x = left(x); else x = right(x); return y;`, where `y` starts as `end()` (`none`). -/
def lower_bound (comp : K → K → Bool) : RbTree K V → Option (K × V) → K → Option (K × V)
  | nil, y, _ => y
  | node l key v r, y, k =>
    if !comp key k then lower_bound comp l (some (key, v)) k
    else lower_bound comp r y k

/-- The entry `std::map::find(k)` returns: `j = lower_bound(k)`, then
`(j == end() || comp(k, key(j))) ? end() : j`. -/
def findEntry (comp : K → K → Bool) (t : RbTree K V) (k : K) : Option (K × V) :=
  match lower_bound comp t none k with
  | none => none
  | some e => if comp k e.1 then none else some e

/-- The mapped value `find(k)->second`, when `find(k) != end()`. -/
def find (comp : K → K → Bool) (t : RbTree K V) (k : K) : Option V :=
  (findEntry comp t k).map Prod.snd

/-- The search of `_Rb_tree::_M_get_insert_unique_pos(k)`: the descent
`while (x != 0) { y = x; comp = compare(k, key(x)); x = comp ? left(x) : right(x); }`, then the
test of the entry `j` before the position reached: `compare(key(j), k)` false means that `j`
blocks the insertion. The entry before the position is the last node at which the descent went
to the right (`j`, `none` when the position is `begin()`): this is `y` itself when the last step
went right and the predecessor `--j` of `y` when it went left. The result is the blocking entry,
or `none` when the key will be inserted. -/
def insert_blocked_by (comp : K → K → Bool) : RbTree K V → Option (K × V) → K → Option (K × V)
  | nil, j, k =>
    match j with
    | none => none
    | some e => if comp e.1 k then none else some e
  | node l key v r, j, k =>
    if comp k key then insert_blocked_by comp l j k
    else insert_blocked_by comp r (some (key, v)) k

/-- The new node of an insertion, linked at the position that the descent of
`_M_get_insert_unique_pos` reaches. -/
def attach (comp : K → K → Bool) : RbTree K V → K → V → RbTree K V
  | nil, k, v => node nil k v nil
  | node l key val r, k, v =>
    if comp k key then node (attach comp l k v) key val r
    else node l key val (attach comp r k v)

/-- The call `std::map::insert(std::pair(k, v))`: nothing is stored when an entry blocks the
insertion, otherwise the new node is linked into the tree. The rebalancing that follows the
linking is not modelled; it rotates and recolours nodes and leaves the sequence of the entries
as it is (and does nothing to a tree of two nodes). -/
def insert (comp : K → K → Bool) (t : RbTree K V) (k : K) (v : V) : RbTree K V :=
  match insert_blocked_by comp t none k with
  | some _ => t
  | none => attach comp t k v

/-- The invariant of a search tree: along the sequence of the entries every key precedes all
later keys. -/
def Sorted (comp : K → K → Bool) (t : RbTree K V) : Prop :=
  t.toList.Pairwise (fun e1 e2 => comp e1.1 e2.1 = true)

instance (comp : K → K → Bool) (t : RbTree K V) : Decidable (Sorted comp t) := by
  unfold Sorted; infer_instance

end RbTree

/-! ## `Api2D` -/

/-- The constant `NUM_THREADS` of `include/util/config.h`. -/
def NUM_THREADS : Int := 8

/-- Modelled from the spec: the enumeration `Hermes2DApiParam` is declared in `api2d.h`, which is
not among the sources. `api2d.cpp` names two of its enumerators, `numThreads` and
`secondDerivatives`; `other n` stands for every further value a variable of the enumeration type
can hold. -/
inductive Hermes2DApiParam where
  | numThreads
  | secondDerivatives
  | other (n : Nat)
  deriving DecidableEq

/-- Modelled from the spec: the integer value of an enumerator, numbered in the order of
declaration as C++ does when no value is given. The container only uses that different
enumerators have different values. -/
def Hermes2DApiParam.value : Hermes2DApiParam → Int
  | numThreads => 0
  | secondDerivatives => 1
  | other n => (n : Int) + 2

/-- The comparison object of `std::map<Hermes2DApiParam, Parameter*>`: `std::less`, which
compares the values of the enumerators. -/
def Hermes2DApiParam.less (a b : Hermes2DApiParam) : Bool := decide (a.value < b.value)

/-- The class `Api2D::Parameter`. The member `user_val` holds no value (`none`) until it is
assigned: the constructor leaves it uninitialised. -/
structure Parameter where
  default_val : Int
  user_set : Bool
  user_val : Option Int
  deriving DecidableEq

/-- The constructor `Api2D::Parameter::Parameter(int default_val)`. -/
def Parameter.new (default_val : Int) : Parameter where
  default_val := default_val
  user_set := false
  user_val := none

/-- The exception `Hermes::Exceptions::Exception("Wrong Hermes::Api parameter name:%i", param)`. -/
inductive Exception where
  | wrongParameterName (param : Hermes2DApiParam)
  deriving DecidableEq

/-- How a call ends: it returns a value, it throws, or it returns the content of a member that
was never assigned, which is no definite value. -/
inductive Outcome (α : Type) where
  | returned (a : α)
  | thrown (e : Exception)
  | indeterminate
  deriving DecidableEq

/-- The class `Api2D`: its state is the table `parameters`. Every key owns the `Parameter` object
its pointer refers to (the only insertions, in the constructor, allocate a fresh one each), so the
table holds the objects themselves. -/
structure Api2D where
  parameters : StdMap Hermes2DApiParam Parameter
  deriving DecidableEq

namespace Api2D

/-- The constructor `Api2D::Api2D()`: the two `insert` calls into the empty table. The `signal`
calls do not touch the table. -/
def new : Api2D where
  parameters :=
    StdMap.insert Hermes2DApiParam.less
      (StdMap.insert Hermes2DApiParam.less [] Hermes2DApiParam.numThreads
        (Parameter.new NUM_THREADS))
      Hermes2DApiParam.secondDerivatives (Parameter.new 0)

/-- The method `Api2D::get_param_value`. -/
def get_param_value (api : Api2D) (param : Hermes2DApiParam) : Outcome Int :=
  match StdMap.find Hermes2DApiParam.less api.parameters param with
  | none => Outcome.thrown (Exception.wrongParameterName param)
  | some par =>
    if par.user_set then
      match par.user_val with
      | some v => Outcome.returned v
      | none => Outcome.indeterminate
    else Outcome.returned par.default_val

/-- The method `Api2D::set_param_value`: how the call ends, and the state it leaves. -/
def set_param_value (api : Api2D) (param : Hermes2DApiParam) (value : Int) :
    Outcome Unit × Api2D :=
  match StdMap.find Hermes2DApiParam.less api.parameters param with
  | none => (Outcome.thrown (Exception.wrongParameterName param), api)
  | some _ =>
    let api1 : Api2D :=
      ⟨StdMap.modify Hermes2DApiParam.less api.parameters param
        (fun par => { par with user_set := true })⟩
    let api2 : Api2D :=
      ⟨StdMap.modify Hermes2DApiParam.less api1.parameters param
        (fun par => { par with user_val := some value })⟩
    (Outcome.returned (), api2)

/-- The parameter is in the table: `parameters.find(param) != parameters.end()`. -/
def registered (api : Api2D) (param : Hermes2DApiParam) : Prop :=
  (StdMap.find Hermes2DApiParam.less api.parameters param).isSome = true

instance (api : Api2D) (param : Hermes2DApiParam) : Decidable (api.registered param) := by
  unfold registered; infer_instance

/-- The state after a sequence of `set_param_value(param, value)` calls, a call that throws being
caught by the caller. -/
def run (api : Api2D) (calls : List (Hermes2DApiParam × Int)) : Api2D :=
  calls.foldl (fun s c => (s.set_param_value c.1 c.2).2) api

end Api2D

/-! ## Sparse structure builder -/

/-- Modelled from the spec: a matrix form term of the `WeakForm`, with the tags that the builder
of the sparse structure reads: the target block (row space `i`, column space `j`) and the marker
of the domain the term is restricted to. The class is declared in `weakform/weakform.h`, which is
not among the sources. -/
structure MatrixForm where
  i : Nat
  j : Nat
  area : Int
  deriving DecidableEq

/-- Modelled from the spec: an element as the sparse structure builder sees it in a traversal
state: its marker and, for every space, its list of local DOF indices (`al[I]`, the `AsmList` of
space `I`). The classes `Element` and `AsmList` are not among the sources. -/
structure Element where
  marker : Int
  al : List (List Nat)
  deriving DecidableEq

/-- The local DOF list of the element for space `I` (empty when the element has none). -/
def Element.dofs (e : Element) (I : Nat) : List Nat := e.al.getD I []

/-- An entry of the nonzero pattern: block row, block column, row DOF, column DOF. -/
abbrev PatternEntry := Nat × Nat × Nat × Nat

/-- Modelled from the spec: the entries one element adds to block `(I, J)`: every pair of its
local DOF indices, row space times column space (section 4.1 of the design document). -/
def add_block (I J : Nat) (e : Element) : List PatternEntry :=
  (e.dofs I).flatMap (fun r => (e.dofs J).map (fun c => (I, J, r, c)))

/-- Modelled from the spec: `DiscreteProblem::create_sparse_structure`, of which only the
declaration is among the sources (its body is in `discrete_problem.cpp`). Following section 4.1
of the design document: for every element and every matrix form term applicable to the marker of
the element, every pair of local DOF indices (row space times column space) is entered; if
`force_diagonal_blocks` is set, the diagonal blocks receive the entries of every element even
when no form exists there. The result is the nonzero pattern of a call that completes; the
configuration errors and the optional `block_weights` table, on which the design document states
no effect on the pattern, are left out. -/
def create_sparse_structure (num_spaces : Nat) (wf : List MatrixForm) (elements : List Element)
    (force_diagonal_blocks : Bool) : List PatternEntry :=
  elements.flatMap (fun e =>
    (wf.filter (fun f => f.area = e.marker)).flatMap (fun f => add_block f.i f.j e) ++
    (if force_diagonal_blocks then
      (List.range num_spaces).flatMap (fun I => add_block I I e)
    else []))

/-- The union, over the elements of domain `D`, of the cross product of the local DOF list of the
element for `I` with its local DOF list for `J`: here membership of the pair `(r, c)`. -/
def unionOverDomain (elements : List Element) (D : Int) (I J r c : Nat) : Prop :=
  ∃ e ∈ elements, e.marker = D ∧ r ∈ e.dofs I ∧ c ∈ e.dofs J

/-! ## Multimesh neighbor tree -/

/-- The class `NeighborNode`, seen through a pointer to it: `null` is the `NULL` pointer, and a
node holds its transformation and the pointers to its left and right son. The `parent` pointer
is the inverse of the son pointers and is not stored. -/
inductive NeighborNode where
  | null
  | node (transformation : Nat) (left_son right_son : NeighborNode)
  deriving DecidableEq

namespace NeighborNode

/-- The test `node == NULL`. -/
def isNull : NeighborNode → Bool
  | null => true
  | node _ _ _ => false

/-- The accessor `NeighborNode::get_transformation`. -/
def get_transformation : NeighborNode → Nat
  | null => 0
  | node t _ _ => t

/-- The accessor `NeighborNode::get_left_son`. -/
def get_left_son : NeighborNode → NeighborNode
  | null => null
  | node _ l _ => l

/-- The accessor `NeighborNode::get_right_son`. -/
def get_right_son : NeighborNode → NeighborNode
  | null => null
  | node _ _ r => r

end NeighborNode

/-- Modelled from the spec: `DiscreteProblem::insert_into_multimesh_tree`, of which only the
declaration is among the sources. Following step 2 of section 4.3 of the design document: the
sequence is walked from the node; where a son with the next transformation exists the walk
continues in it, and where the sequence diverges from the existing structure a son is created,
the left one first, then the right one. A node that has two sons already has no place for a third
transformation: the insertion fails (`none`), an internal inconsistency. -/
def insert_into_multimesh_tree : NeighborNode → List Nat → Option NeighborNode
  | .null, _ => none
  | .node t l r, [] => some (.node t l r)
  | .node t l r, x :: xs =>
    if l.isNull then
      (insert_into_multimesh_tree (.node x .null .null) xs).map (fun son => .node t son r)
    else if l.get_transformation = x then
      (insert_into_multimesh_tree l xs).map (fun son => .node t son r)
    else if r.isNull then
      (insert_into_multimesh_tree (.node x .null .null) xs).map (fun son => .node t l son)
    else if r.get_transformation = x then
      (insert_into_multimesh_tree r xs).map (fun son => .node t l son)
    else none

/-- Modelled from the spec: the part of a `NeighborSearch` that the tree is built from, the
transformation sequence of each of its neighbors on the edge. The class is declared in
`neighbor.h`, which is not among the sources. -/
structure NeighborSearch where
  transformations : List (List Nat)
  deriving DecidableEq

/-- Modelled from the spec: the loop of `build_multimesh_tree` over the sequences: they are
inserted one after the other, as long as no insertion fails. -/
def insert_all : Option NeighborNode → List (List Nat) → Option NeighborNode
  | tree, [] => tree
  | tree, s :: ss => insert_all (tree.bind (fun n => insert_into_multimesh_tree n s)) ss

/-- Modelled from the spec: `DiscreteProblem::build_multimesh_tree`, of which only the
declaration is among the sources. Following steps 1 and 2 of section 4.3 of the design document:
the transformation sequences of the `NeighborSearch` of each mesh are inserted into the tree
under `root`. -/
def build_multimesh_tree (root : NeighborNode) (neighbor_searches : List NeighborSearch) :
    Option NeighborNode :=
  insert_all (some root) (neighbor_searches.map NeighborSearch.transformations).flatten

/-- Modelled from the spec: `DiscreteProblem::traverse_multimesh_tree`, of which only the
declaration is among the sources: the transformation paths that lead from the node down to the
leaves below it. A node without sons is a leaf, reached by the empty path. -/
def traverse_multimesh_tree : NeighborNode → List (List Nat)
  | .null => []
  | .node _ l r =>
    if l.isNull && r.isNull then [[]]
    else
      (traverse_multimesh_tree l).map (fun p => l.get_transformation :: p) ++
      (traverse_multimesh_tree r).map (fun p => r.get_transformation :: p)

/-- Modelled from the spec: `DiscreteProblem::get_multimesh_neighbors_transformations`, of which
only the declaration is among the sources. Following step 3 of section 4.3 of the design
document: the traversal of the completed tree collects the full set of leaf transformation
paths. -/
def get_multimesh_neighbors_transformations (multimesh_tree : NeighborNode) :
    List (List Nat) :=
  traverse_multimesh_tree multimesh_tree

/-! ### Intervals on the edge

The edge is the interval `[0, 1)` of an ordered field `K`. On a given edge a bisection has two
transformations, `lo` for the first half and `hi` for the second half; a transformation path
stands for the dyadic interval reached by bisecting along it. -/

/-- Which half a transformation selects: `1` for `hi`, `0` otherwise. -/
def half (K : Type) [LinearOrderedField K] (hi : Nat) (x : Nat) : K := if x = hi then 1 else 0

/-- The left end of the interval of a transformation path. -/
def intervalStart (K : Type) [LinearOrderedField K] (hi : Nat) : List Nat → K
  | [] => 0
  | x :: xs => (half K hi x + intervalStart K hi xs) / 2

/-- The length of the interval of a transformation path: one half per bisection. -/
def intervalLength (K : Type) [LinearOrderedField K] (p : List Nat) : K := (1 / 2) ^ p.length

/-- The point `y` lies in the (half-open) interval of the transformation path `p`. -/
def covers (K : Type) [LinearOrderedField K] (hi : Nat) (p : List Nat) (y : K) : Prop :=
  intervalStart K hi p ≤ y ∧ y < intervalStart K hi p + intervalLength K p

/-- The transformation paths `paths` tile the edge exactly once: every path is made of the two
transformations of the edge, the intervals of the paths are pairwise non-overlapping, and their
union is the whole edge. -/
def TilesEdge (K : Type) [LinearOrderedField K] (lo hi : Nat) (paths : List (List Nat)) : Prop :=
  (∀ p ∈ paths, ∀ x ∈ p, x = lo ∨ x = hi) ∧
  paths.Pairwise (fun p q => ∀ y : K, ¬ (covers K hi p y ∧ covers K hi q y)) ∧
  (∀ y : K, 0 ≤ y → y < 1 → ∃ p ∈ paths, covers K hi p y)

/-! ### Reasoning about the tree -/

/-- The path `p` leads from the node to a node below it (or to the node itself). -/
def reach : NeighborNode → List Nat → Prop
  | .null, _ => False
  | .node _ _ _, [] => True
  | .node _ l r, x :: xs =>
    (l.get_transformation = x ∧ reach l xs) ∨ (r.get_transformation = x ∧ reach r xs)

/-- The shape of the trees that insertion builds on an edge whose two transformations are `lo`
and `hi`: a right son only next to a left son, sons labelled `lo` or `hi`, two sons labelled
differently. -/
def TreeInv (lo hi : Nat) : NeighborNode → Prop
  | .null => True
  | .node _ l r =>
    (l = .null → r = .null) ∧
    (l ≠ .null → l.get_transformation = lo ∨ l.get_transformation = hi) ∧
    (r ≠ .null → (r.get_transformation = lo ∨ r.get_transformation = hi) ∧
      r.get_transformation ≠ l.get_transformation) ∧
    TreeInv lo hi l ∧ TreeInv lo hi r

/-! ## Reconciling a `NeighborSearch` with the multimesh tree -/

/-- The conversion of an `int` value to `unsigned int` (32 bits), as a `return` statement of a
function declared `unsigned int` performs it: the value modulo `2 ^ 32`. -/
def toUnsignedInt (z : Int) : Nat := (z % 2 ^ 32).toNat

/-- The conversion of an `unsigned int` value to `int` (32 bits, two's complement), as the
initialisation of an `int` by the returned value performs it. -/
def toSignedInt (n : Nat) : Int := if n < 2 ^ 31 then (n : Int) else (n : Int) - 2 ^ 32

/-- Modelled from the spec: `DiscreteProblem::update_ns_subtree`, of which only the declaration
and its comment are among the sources ("Returns 0 if no neighbor was deleted, -1 otherwise", with
the return type `unsigned int`). Following step 4 of section 4.3 of the design document: if the
node that the neighbor corresponds to is a leaf of the tree, the neighbor is kept; otherwise it
is deleted and replaced by the finer neighbors that the leaves of the subtree stand for. The
result is the returned `unsigned int` and the `NeighborSearch` after the call. -/
def update_ns_subtree (ns : NeighborSearch) (node : NeighborNode) (ith_neighbor : Nat) :
    Nat × NeighborSearch :=
  if node.get_left_son.isNull && node.get_right_son.isNull then
    (toUnsignedInt 0, ns)
  else
    let current := ns.transformations.getD ith_neighbor []
    let finer := (traverse_multimesh_tree node).map (fun p => current ++ p)
    (toUnsignedInt (-1),
      ⟨ns.transformations.take ith_neighbor ++ finer ++
        ns.transformations.drop (ith_neighbor + 1)⟩)

/-! ## Adaptive form evaluation -/

/-- Modelled from the spec: the recursion of `DiscreteProblem::eval_form_adaptive`, of which only
the declaration is among the sources, as the list of the branches at which it terminates, each
with its sub-element (the transformation path from the element) and its value. Following
section 4.4 of the design document: the sum of the sub-element evaluations at the next order is
compared with the estimate `result_init` of the current order; the branch stops when the relative
difference is below the tolerance or the maximum recursion depth is reached (`remaining` is the
number of levels left down to the maximum depth), and is subdivided otherwise.

The floating-point arithmetic stays a parameter: `eval_form_subelement order path` is the value
of `eval_form_subelement` on a sub-element, `add` and `zero` sum the scalars, and
`rel_error current init` is the relative difference; `num_sons` is the number of sub-elements of
a subdivision. -/
def eval_form_adaptive_branches {Scalar : Type} (eval_form_subelement : Nat → List Nat → Scalar)
    (add : Scalar → Scalar → Scalar) (zero : Scalar) (rel_error : Scalar → Scalar → Double)
    (tol : Double) (num_sons : Nat) :
    Nat → Nat → Scalar → List Nat → List (List Nat × Scalar)
  | 0, order_init, _, path =>
    [(path, ((List.range num_sons).map
      (fun i => eval_form_subelement (order_init + 1) (path ++ [i]))).foldl add zero)]
  | remaining + 1, order_init, result_init, path =>
    let subs_value := fun i => eval_form_subelement (order_init + 1) (path ++ [i])
    let result_current := ((List.range num_sons).map subs_value).foldl add zero
    if Double.lt (rel_error result_current result_init) tol then [(path, result_current)]
    else
      (List.range num_sons).flatMap (fun i =>
        eval_form_adaptive_branches eval_form_subelement add zero rel_error tol num_sons
          remaining (order_init + 1) (subs_value i) (path ++ [i]))

/-- Modelled from the spec: `DiscreteProblem::eval_form_adaptive`, of which only the declaration
is among the sources: the final value is the sum over all terminated branches (section 4.4 of the
design document). The recursion starts on the element itself with `max_depth` levels left. -/
def eval_form_adaptive {Scalar : Type} (eval_form_subelement : Nat → List Nat → Scalar)
    (add : Scalar → Scalar → Scalar) (zero : Scalar) (rel_error : Scalar → Scalar → Double)
    (tol : Double) (num_sons max_depth : Nat) (order_init : Nat) (result_init : Scalar) : Scalar :=
  ((eval_form_adaptive_branches eval_form_subelement add zero rel_error tol num_sons
    max_depth order_init result_init []).map Prod.snd).foldl add zero

/-! ## The test `tests/tutorial/14-hcurl-adapt` -/

/-- The constant `ERR_STOP` of `main.cpp`. -/
def ERR_STOP : Double := Double.finite 1

/-- The constant `NDOF_STOP` of `main.cpp`. -/
def NDOF_STOP : Int := 60000

/-- The value of the preprocessor symbol `ERROR_SUCCESS` of `main.cpp`. -/
def ERROR_SUCCESS : Int := 0

/-- The value of the preprocessor symbol `ERROR_FAILURE` of `main.cpp`. -/
def ERROR_FAILURE : Int := -1

/-- What one pass through the body of the adaptivity loop of `main` leaves: the step counter
`as`, the flag `done` before and after the test of the DOF limit, and the number of calls of
`adaptivity->adapt`. -/
structure AdaptivityStep where
  as : Int
  done_before_limit : Bool
  done : Bool
  adapt_calls : Nat
  deriving DecidableEq

/-- The stop conditions of the adaptivity loop of `main` (lines 167 to 177 of `main.cpp`), for
the step counter `as` at the start of the pass, the estimate `err_est_rel`, the value
`adapt_result` that `adaptivity->adapt` returns if it is called, and the value `ndof` of
`get_num_dofs(&space)` in the test of the DOF limit. The counter is an `int` far from its
bounds, so `as++` is `as + 1`. -/
def adaptivity_step (as : Int) (err_est_rel : Double) (adapt_result : Bool) (ndof : Int) :
    AdaptivityStep :=
  let afterError : Int × Bool × Nat :=
    if Double.lt err_est_rel ERR_STOP then (as, true, 0)
    else (if adapt_result = false then as + 1 else as, adapt_result, 1)
  { as := afterError.1
    done_before_limit := afterError.2.1
    done := if ndof ≥ NDOF_STOP then true else afterError.2.1
    adapt_calls := afterError.2.2 }

/-- The verdict of the test (lines 193 to 206 of `main.cpp`): the value `main` returns for the
final number `ndof` of degrees of freedom. -/
def test_verdict (ndof : Int) : Int :=
  if ndof < 1400 then ERROR_SUCCESS else ERROR_FAILURE

/-- Modelled from the spec: the enumeration `BCType` is declared in a header that is not among
the sources. `main.cpp` names two of its enumerators, `BC_ESSENTIAL` and `BC_NATURAL`; `other n`
stands for every further value of the enumeration type. -/
inductive BCType where
  | BC_ESSENTIAL
  | BC_NATURAL
  | other (n : Nat)
  deriving DecidableEq

/-- The function `bc_types` of `main.cpp` (boundary condition types): the perfect conductor on
the markers 1 and 6, the impedance condition elsewhere. -/
def bc_types (marker : Int) : BCType :=
  if marker = 1 ∨ marker = 6 then BCType.BC_ESSENTIAL else BCType.BC_NATURAL

/-- The function `essential_bc_values` of `main.cpp` (essential boundary condition values):
`return 0;`. The type `scalar` is a typedef of a header that is not among the sources (`double`
or `std::complex<double>`); it is a parameter here, and `0` is the value the literal `0`
converts to. -/
def essential_bc_values {scalar : Type} [OfNat scalar 0] (_ess_bdy_marker : Int)
    (_x _y : Double) : scalar := 0

/-- The relation "neither key precedes the other" under `CompareConst`. -/
def KeyConst.incomparable (a b : KeyConst) : Prop :=
  CompareConst a b = false ∧ CompareConst b a = false

/-- The parameter table satisfies: a parameter whose `user_set` flag is true has had its
`user_val` written. -/
def Api2D.userValWritten (s : Api2D) : Prop :=
  ∀ p par, StdMap.find Hermes2DApiParam.less s.parameters p = some par →
    par.user_set = true → par.user_val.isSome = true

end Hermes2D

namespace Hermes2D

/-! ## Comparison of doubles -/

theorem Double.lt_irrefl (x : Double) : Double.lt x x = false := by
  cases x <;> simp [Double.lt]

theorem Double.lt_asymm {x y : Double} (h : Double.lt x y = true) : Double.lt y x = false := by
  cases x <;> cases y <;> simp_all [Double.lt, Double.toRat] <;> linarith

theorem Double.eq_iff_not_lt_gt {x y : Double} (hx : x ≠ Double.nan) (hy : y ≠ Double.nan) :
    Double.eq x y = true ↔ (Double.lt x y = false ∧ Double.gt x y = false) := by
  cases x <;> cases y <;> simp_all [Double.lt, Double.gt, Double.eq, Double.toRat] <;>
    constructor <;> intro h <;> first | linarith | (constructor <;> linarith)

theorem Double.lt_iff_toExt {x y : Double} (hx : x ≠ Double.nan) (hy : y ≠ Double.nan) :
    Double.lt x y = true ↔ x.toExt < y.toExt := by
  cases x <;> cases y <;>
    simp_all [Double.lt, Double.toExt, Double.toRat, WithBot.bot_lt_coe, WithTop.coe_lt_top,
      -WithTop.coe_zero, -WithBot.coe_zero, lt_top_iff_ne_top]

theorem Double.eq_iff_toExt {x y : Double} (hx : x ≠ Double.nan) (hy : y ≠ Double.nan) :
    Double.eq x y = true ↔ x.toExt = y.toExt := by
  cases x <;> cases y <;>
    simp_all [Double.eq, Double.toExt, Double.toRat, -WithTop.coe_zero, -WithBot.coe_zero]

/-! ## Lexicographic steps -/

theorem ite_lt_gt_iff {α : Type} [LinearOrder α] (x y : α) (r : Bool) (R : Prop)
    (h : r = true ↔ R) :
    (if x < y then true else if x > y then false else r) = true ↔ x < y ∨ (x = y ∧ R) := by
  rcases lt_trichotomy x y with hlt | heq | hgt
  · simp [hlt]
  · subst heq; simp [h]
  · have h1 : ¬ x < y := not_lt.mpr hgt.le
    have h2 : x ≠ y := ne_of_gt hgt
    simp [h1, h2, hgt]

theorem ite_dlt_dgt_iff {x y : Double} (hx : x ≠ Double.nan) (hy : y ≠ Double.nan) (r : Bool)
    (R : Prop) (h : r = true ↔ R) :
    (if Double.lt x y = true then true else if Double.gt x y = true then false else r) = true ↔
      Double.lt x y = true ∨ (Double.eq x y = true ∧ R) := by
  rw [Double.eq_iff_not_lt_gt hx hy]
  cases h1 : Double.lt x y <;> cases h2 : Double.gt x y <;> simp [h]

theorem lex_trans_step {α : Type} [LinearOrder α] {x y z : α} {P Q R : Prop} (h : P → Q → R) :
    (x < y ∨ (x = y ∧ P)) → (y < z ∨ (y = z ∧ Q)) → (x < z ∨ (x = z ∧ R)) := by
  rintro (h1 | ⟨rfl, hp⟩) (h2 | ⟨rfl, hq⟩)
  · exact Or.inl (lt_trans h1 h2)
  · exact Or.inl h1
  · exact Or.inl h2
  · exact Or.inr ⟨rfl, h hp hq⟩

theorem exactlyOne_base {α : Type} [LinearOrder α] (x y : α) :
    ExactlyOne (x < y) (y < x) (x = y) := by
  refine ⟨?_, ?_, ?_, ?_⟩
  · rcases lt_trichotomy x y with h | h | h
    · exact Or.inl h
    · exact Or.inr (Or.inr h)
    · exact Or.inr (Or.inl h)
  · rintro ⟨h1, h2⟩; exact lt_asymm h1 h2
  · rintro ⟨h1, h2⟩; exact ne_of_lt h1 h2
  · rintro ⟨h1, h2⟩; exact ne_of_gt h1 h2

theorem exactlyOne_step {α : Type} [LinearOrder α] (x y : α) {P Q E : Prop}
    (h : ExactlyOne P Q E) :
    ExactlyOne (x < y ∨ (x = y ∧ P)) (y < x ∨ (y = x ∧ Q)) (x = y ∧ E) := by
  obtain ⟨h1, h2, h3, h4⟩ := h
  refine ⟨?_, ?_, ?_, ?_⟩
  · rcases lt_trichotomy x y with h | h | h
    · exact Or.inl (Or.inl h)
    · rcases h1 with p | q | e
      · exact Or.inl (Or.inr ⟨h, p⟩)
      · exact Or.inr (Or.inl (Or.inr ⟨h.symm, q⟩))
      · exact Or.inr (Or.inr ⟨h, e⟩)
    · exact Or.inr (Or.inl (Or.inl h))
  · rintro ⟨a | ⟨a, p⟩, b | ⟨b, q⟩⟩
    · exact lt_asymm a b
    · exact ne_of_gt a b
    · exact ne_of_gt b a
    · exact h2 ⟨p, q⟩
  · rintro ⟨a | ⟨a, p⟩, b, e⟩
    · exact ne_of_lt a b
    · exact h3 ⟨p, e⟩
  · rintro ⟨a | ⟨a, q⟩, b, e⟩
    · exact ne_of_gt a b
    · exact h4 ⟨q, e⟩

/-! ## `CompareNonConst` -/

theorem CompareNonConst_iff (a b : KeyNonConst) :
    CompareNonConst a b = true ↔ a.lexLess b := by
  unfold CompareNonConst KeyNonConst.lexLess
  refine ite_lt_gt_iff _ _ _ _ (ite_lt_gt_iff _ _ _ _ (ite_lt_gt_iff _ _ _ _ ?_))
  simp

/-- The order `CompareConst` induces on keys without NaN, on the extended number line. -/
theorem CompareConst_iff_toExt {a b : KeyConst} (ha : a.noNaN) (hb : b.noNaN) :
    CompareConst a b = true ↔
      (a.inv_ref_map.e00.toExt < b.inv_ref_map.e00.toExt ∨
      (a.inv_ref_map.e00.toExt = b.inv_ref_map.e00.toExt ∧
      (a.inv_ref_map.e01.toExt < b.inv_ref_map.e01.toExt ∨
      (a.inv_ref_map.e01.toExt = b.inv_ref_map.e01.toExt ∧
      (a.inv_ref_map.e10.toExt < b.inv_ref_map.e10.toExt ∨
      (a.inv_ref_map.e10.toExt = b.inv_ref_map.e10.toExt ∧
      (a.inv_ref_map.e11.toExt < b.inv_ref_map.e11.toExt ∨
      (a.inv_ref_map.e11.toExt = b.inv_ref_map.e11.toExt ∧
      (a.index < b.index ∨ (a.index = b.index ∧
      (a.order < b.order ∨ (a.order = b.order ∧
      (a.sub_idx < b.sub_idx ∨ (a.sub_idx = b.sub_idx ∧
      a.shapeset_type < b.shapeset_type)))))))))))))) := by
  obtain ⟨a0, a1, a2, a3⟩ := ha
  obtain ⟨b0, b1, b2, b3⟩ := hb
  rw [← Double.lt_iff_toExt a0 b0, ← Double.lt_iff_toExt a1 b1, ← Double.lt_iff_toExt a2 b2,
    ← Double.lt_iff_toExt a3 b3, ← Double.eq_iff_toExt a0 b0, ← Double.eq_iff_toExt a1 b1,
    ← Double.eq_iff_toExt a2 b2, ← Double.eq_iff_toExt a3 b3]
  unfold CompareConst
  refine ite_dlt_dgt_iff a0 b0 _ _ (ite_dlt_dgt_iff a1 b1 _ _ (ite_dlt_dgt_iff a2 b2 _ _
    (ite_dlt_dgt_iff a3 b3 _ _
      (ite_lt_gt_iff _ _ _ _ (ite_lt_gt_iff _ _ _ _ (ite_lt_gt_iff _ _ _ _ ?_))))))
  simp

theorem KeyConst.fieldsEqual_iff_toExt {a b : KeyConst} (ha : a.noNaN) (hb : b.noNaN) :
    a.fieldsEqual b ↔
      (a.inv_ref_map.e00.toExt = b.inv_ref_map.e00.toExt ∧
      a.inv_ref_map.e01.toExt = b.inv_ref_map.e01.toExt ∧
      a.inv_ref_map.e10.toExt = b.inv_ref_map.e10.toExt ∧
      a.inv_ref_map.e11.toExt = b.inv_ref_map.e11.toExt ∧
      a.index = b.index ∧ a.order = b.order ∧ a.sub_idx = b.sub_idx ∧
      a.shapeset_type = b.shapeset_type) := by
  obtain ⟨a0, a1, a2, a3⟩ := ha
  obtain ⟨b0, b1, b2, b3⟩ := hb
  rw [← Double.eq_iff_toExt a0 b0, ← Double.eq_iff_toExt a1 b1,
    ← Double.eq_iff_toExt a2 b2, ← Double.eq_iff_toExt a3 b3]
  rfl

/-! ## The claims on the comparison functors -/

/-- C1: on keys whose inverse-mapping entries are no NaN, `CompareConst a b` is true exactly when
the 8-tuple (inv_ref_map[0][0], inv_ref_map[0][1], inv_ref_map[1][0], inv_ref_map[1][1], index,
order, sub_idx, shapeset_type) of `a` is lexicographically smaller than that of `b`; all eight
fields take part. -/
theorem CompareConst_iff_lexLess (a b : KeyConst) (ha : a.noNaN) (hb : b.noNaN) :
    CompareConst a b = true ↔ a.lexLess b := by
  obtain ⟨a0, a1, a2, a3⟩ := ha
  obtain ⟨b0, b1, b2, b3⟩ := hb
  unfold CompareConst KeyConst.lexLess
  refine ite_dlt_dgt_iff a0 b0 _ _ (ite_dlt_dgt_iff a1 b1 _ _ (ite_dlt_dgt_iff a2 b2 _ _
    (ite_dlt_dgt_iff a3 b3 _ _
      (ite_lt_gt_iff _ _ _ _ (ite_lt_gt_iff _ _ _ _ (ite_lt_gt_iff _ _ _ _ ?_))))))
  simp

theorem CompareConst_iff_lexLess_witness :
    (KeyConst.new 3 2 0 1 ⟨.finite 1, .negZero, .finite 0, .finite (-2)⟩).noNaN ∧
    (KeyConst.new 3 2 5 0 ⟨.finite 1, .finite 0, .negZero, .finite (-2)⟩).noNaN ∧
    (CompareConst (KeyConst.new 3 2 0 1 ⟨.finite 1, .negZero, .finite 0, .finite (-2)⟩)
        (KeyConst.new 3 2 5 0 ⟨.finite 1, .finite 0, .negZero, .finite (-2)⟩) = true ↔
      (KeyConst.new 3 2 0 1 ⟨.finite 1, .negZero, .finite 0, .finite (-2)⟩).lexLess
        (KeyConst.new 3 2 5 0 ⟨.finite 1, .finite 0, .negZero, .finite (-2)⟩)) :=
  ⟨by decide, by decide, CompareConst_iff_lexLess _ _ (by decide) (by decide)⟩

/-- C2: `CompareNonConst a b` is true exactly when (index, order, sub_idx, shapeset_type) of `a`
is lexicographically smaller than that of `b`, where index, order and shapeset_type are compared
as signed integers and sub_idx as an unsigned one; all four fields take part. -/
theorem CompareNonConst_iff_lexLess (a b : KeyNonConst) :
    CompareNonConst a b = true ↔ a.lexLess b :=
  CompareNonConst_iff a b

/-- C3: on keys whose inverse-mapping entries are no NaN, `CompareConst` is a strict total order:
it is irreflexive and transitive, and of `CompareConst a b`, `CompareConst b a` and "all eight
fields of `a` and `b` are equal" exactly one holds. -/
theorem CompareConst_strict_total_order (a b c : KeyConst) (ha : a.noNaN) (hb : b.noNaN)
    (hc : c.noNaN) :
    CompareConst a a = false ∧
    (CompareConst a b = true → CompareConst b c = true → CompareConst a c = true) ∧
    ExactlyOne (CompareConst a b = true) (CompareConst b a = true) (a.fieldsEqual b) := by
  refine ⟨?_, ?_, ?_⟩
  · have h := CompareConst_iff_toExt ha ha
    cases hv : CompareConst a a
    · rfl
    · exfalso
      have h' := h.mp hv
      simp at h'
  · rw [CompareConst_iff_toExt ha hb, CompareConst_iff_toExt hb hc, CompareConst_iff_toExt ha hc]
    exact lex_trans_step (lex_trans_step (lex_trans_step (lex_trans_step (lex_trans_step
      (lex_trans_step (lex_trans_step (fun h1 h2 => lt_trans h1 h2)))))))
  · rw [CompareConst_iff_toExt ha hb, CompareConst_iff_toExt hb ha,
      KeyConst.fieldsEqual_iff_toExt ha hb]
    exact exactlyOne_step _ _ (exactlyOne_step _ _ (exactlyOne_step _ _ (exactlyOne_step _ _
      (exactlyOne_step _ _ (exactlyOne_step _ _ (exactlyOne_step _ _ (exactlyOne_base _ _)))))))

theorem CompareConst_strict_total_order_witness :
    (KeyConst.new 0 1 2 3 ⟨.negInf, .finite 1, .finite 2, .finite 3⟩).noNaN ∧
    (KeyConst.new 0 1 2 3 ⟨.negZero, .finite 1, .finite 2, .finite 3⟩).noNaN ∧
    (KeyConst.new 0 1 2 4 ⟨.finite 0, .finite 1, .finite 2, .finite 3⟩).noNaN ∧
    CompareConst (KeyConst.new 0 1 2 3 ⟨.negInf, .finite 1, .finite 2, .finite 3⟩)
      (KeyConst.new 0 1 2 4 ⟨.finite 0, .finite 1, .finite 2, .finite 3⟩) = true :=
  ⟨by decide, by decide, by decide,
    (CompareConst_strict_total_order
      (KeyConst.new 0 1 2 3 ⟨.negInf, .finite 1, .finite 2, .finite 3⟩)
      (KeyConst.new 0 1 2 3 ⟨.negZero, .finite 1, .finite 2, .finite 3⟩)
      (KeyConst.new 0 1 2 4 ⟨.finite 0, .finite 1, .finite 2, .finite 3⟩)
      (by decide) (by decide) (by decide)).2.1 (by decide) (by decide)⟩

/-- C4: `CompareNonConst` is a strict total order on `KeyNonConst`: it is irreflexive and
transitive, and of `CompareNonConst a b`, `CompareNonConst b a` and "index, order, sub_idx and
shapeset_type of `a` and `b` are all equal" exactly one holds. -/
theorem CompareNonConst_strict_total_order (a b c : KeyNonConst) :
    CompareNonConst a a = false ∧
    (CompareNonConst a b = true → CompareNonConst b c = true → CompareNonConst a c = true) ∧
    ExactlyOne (CompareNonConst a b = true) (CompareNonConst b a = true) (a.fieldsEqual b) := by
  refine ⟨?_, ?_, ?_⟩
  · cases hv : CompareNonConst a a
    · rfl
    · exfalso
      have h' := (CompareNonConst_iff a a).mp hv
      simp [KeyNonConst.lexLess] at h'
  · rw [CompareNonConst_iff, CompareNonConst_iff, CompareNonConst_iff]
    exact lex_trans_step (lex_trans_step (lex_trans_step (fun h1 h2 => lt_trans h1 h2)))
  · rw [CompareNonConst_iff, CompareNonConst_iff]
    exact exactlyOne_step _ _ (exactlyOne_step _ _ (exactlyOne_step _ _ (exactlyOne_base _ _)))

/-! ## `std::map` lemmas -/

theorem StdMap.findEntry_modify {K V : Type} (comp : K → K → Bool) (m : StdMap K V) (k : K)
    (f : V → V) :
    StdMap.findEntry comp (StdMap.modify comp m k f) k =
      (StdMap.findEntry comp m k).map (fun e => (e.1, f e.2)) := by
  induction m with
  | nil => rfl
  | cons e es ih =>
    unfold StdMap.findEntry at ih ⊢
    by_cases h : StdMap.equiv comp e.1 k = true
    · simp [StdMap.modify, h, List.find?_cons]
    · have hf : StdMap.equiv comp e.1 k = false := by simpa using h
      simpa [StdMap.modify, List.find?_cons, hf] using ih

theorem StdMap.find_modify {K V : Type} (comp : K → K → Bool) (m : StdMap K V) (k : K)
    (f : V → V) :
    StdMap.find comp (StdMap.modify comp m k f) k = (StdMap.find comp m k).map f := by
  unfold StdMap.find
  rw [StdMap.findEntry_modify]
  cases StdMap.findEntry comp m k <;> rfl

theorem StdMap.findEntry_modify_of_ne {K V : Type} (comp : K → K → Bool)
    (hcomp : ∀ a b, StdMap.equiv comp a b = true → a = b) (m : StdMap K V) (k q : K)
    (hq : q ≠ k) (f : V → V) :
    StdMap.findEntry comp (StdMap.modify comp m k f) q = StdMap.findEntry comp m q := by
  induction m with
  | nil => rfl
  | cons e es ih =>
    unfold StdMap.findEntry at ih ⊢
    by_cases h : StdMap.equiv comp e.1 k = true
    · have hek : e.1 = k := hcomp _ _ h
      have hne : StdMap.equiv comp e.1 q ≠ true := fun h' => hq ((hcomp _ _ h').symm.trans hek)
      simp [StdMap.modify, h, List.find?_cons, hne]
    · by_cases h' : StdMap.equiv comp e.1 q = true
      · simp [StdMap.modify, h, List.find?_cons, h']
      · have hf : StdMap.equiv comp e.1 k = false := by simpa using h
        have hf' : StdMap.equiv comp e.1 q = false := by simpa using h'
        simpa [StdMap.modify, List.find?_cons, hf, hf'] using ih

theorem StdMap.find_modify_of_ne {K V : Type} (comp : K → K → Bool)
    (hcomp : ∀ a b, StdMap.equiv comp a b = true → a = b) (m : StdMap K V) (k q : K)
    (hq : q ≠ k) (f : V → V) :
    StdMap.find comp (StdMap.modify comp m k f) q = StdMap.find comp m q := by
  unfold StdMap.find
  rw [StdMap.findEntry_modify_of_ne comp hcomp m k q hq f]

/-! ## `Api2D` lemmas -/

theorem Hermes2DApiParam.value_injective (a b : Hermes2DApiParam) (h : a.value = b.value) :
    a = b := by
  cases a <;> cases b <;> simp [Hermes2DApiParam.value] at h ⊢ <;> omega

theorem Hermes2DApiParam.equiv_less (a b : Hermes2DApiParam)
    (h : StdMap.equiv Hermes2DApiParam.less a b = true) : a = b := by
  apply Hermes2DApiParam.value_injective
  simp [StdMap.equiv, Hermes2DApiParam.less] at h
  omega

theorem Api2D.set_param_value_thrown (s : Api2D) (p : Hermes2DApiParam) (v : Int)
    (h : StdMap.find Hermes2DApiParam.less s.parameters p = none) :
    s.set_param_value p v = (Outcome.thrown (Exception.wrongParameterName p), s) := by
  simp [Api2D.set_param_value, h]

theorem Api2D.set_param_value_returned (s : Api2D) (p : Hermes2DApiParam) (v : Int)
    (par : Parameter) (h : StdMap.find Hermes2DApiParam.less s.parameters p = some par) :
    (s.set_param_value p v).1 = Outcome.returned () ∧
    StdMap.find Hermes2DApiParam.less (s.set_param_value p v).2.parameters p =
      some { par with user_set := true, user_val := some v } := by
  simp [Api2D.set_param_value, h, StdMap.find_modify]

theorem Api2D.set_param_value_frame (s : Api2D) (p q : Hermes2DApiParam) (v : Int)
    (hq : q ≠ p) :
    StdMap.find Hermes2DApiParam.less (s.set_param_value p v).2.parameters q =
      StdMap.find Hermes2DApiParam.less s.parameters q := by
  unfold Api2D.set_param_value
  cases h : StdMap.find Hermes2DApiParam.less s.parameters p with
  | none => rfl
  | some par =>
    simp only
    rw [StdMap.find_modify_of_ne _ Hermes2DApiParam.equiv_less _ _ _ hq,
      StdMap.find_modify_of_ne _ Hermes2DApiParam.equiv_less _ _ _ hq]

theorem Api2D.run_frame (calls : List (Hermes2DApiParam × Int)) (s : Api2D)
    (p : Hermes2DApiParam) (hp : ∀ c ∈ calls, c.1 ≠ p) :
    StdMap.find Hermes2DApiParam.less (s.run calls).parameters p =
      StdMap.find Hermes2DApiParam.less s.parameters p := by
  induction calls generalizing s with
  | nil => rfl
  | cons c cs ih =>
    have h1 : c.1 ≠ p := hp c (List.mem_cons_self _ _)
    have h2 : ∀ c' ∈ cs, c'.1 ≠ p := fun c' hc' => hp c' (List.mem_cons_of_mem _ hc')
    show StdMap.find _ (Api2D.run (s.set_param_value c.1 c.2).2 cs).parameters p = _
    rw [ih _ h2, Api2D.set_param_value_frame s c.1 p c.2 (Ne.symm h1)]

theorem CompareConst_self (a : KeyConst) : CompareConst a a = false := by
  simp [CompareConst, Double.gt, Double.lt_irrefl]

/-! ## The claims on `Api2D` -/

/-- C6: in every state in which the parameter `p` is registered, after `set_param_value(p, v)`
the call `get_param_value(p)` returns `v`, whatever the default value of `p` and whatever was set
on `p` before: the last value set wins. -/
theorem get_param_value_set_param_value (s : Api2D) (p : Hermes2DApiParam) (v : Int)
    (h : s.registered p) :
    (s.set_param_value p v).2.get_param_value p = Outcome.returned v ∧
    ∀ w : Int,
      ((s.set_param_value p w).2.set_param_value p v).2.get_param_value p =
        Outcome.returned v := by
  have key : ∀ (t : Api2D), t.registered p →
      (t.set_param_value p v).2.get_param_value p = Outcome.returned v := by
    intro t ht
    unfold Api2D.registered at ht
    obtain ⟨par, hpar⟩ := Option.isSome_iff_exists.mp ht
    have h2 := (Api2D.set_param_value_returned t p v par hpar).2
    simp [Api2D.get_param_value, h2]
  refine ⟨key s h, fun w => key _ ?_⟩
  unfold Api2D.registered at h ⊢
  obtain ⟨par, hpar⟩ := Option.isSome_iff_exists.mp h
  rw [(Api2D.set_param_value_returned s p w par hpar).2]
  rfl

theorem get_param_value_set_param_value_witness :
    Api2D.new.registered Hermes2DApiParam.numThreads ∧
    (Api2D.new.set_param_value Hermes2DApiParam.numThreads 4).2.get_param_value
      Hermes2DApiParam.numThreads = Outcome.returned 4 :=
  ⟨by decide,
    (get_param_value_set_param_value Api2D.new Hermes2DApiParam.numThreads 4 (by decide)).1⟩

/-- C7: on a freshly constructed `Api2D`, `get_param_value(numThreads)` returns `NUM_THREADS`,
which is 8, and `get_param_value(secondDerivatives)` returns 0; and after any sequence of
`set_param_value` calls none of which names the registered parameter `p`, `get_param_value(p)`
returns the default value of `p`. -/
theorem get_param_value_default (calls : List (Hermes2DApiParam × Int)) (p : Hermes2DApiParam)
    (par : Parameter)
    (hreg : StdMap.find Hermes2DApiParam.less Api2D.new.parameters p = some par)
    (hp : ∀ c ∈ calls, c.1 ≠ p) :
    Api2D.new.get_param_value Hermes2DApiParam.numThreads = Outcome.returned NUM_THREADS ∧
    NUM_THREADS = 8 ∧
    Api2D.new.get_param_value Hermes2DApiParam.secondDerivatives = Outcome.returned 0 ∧
    (Api2D.new.run calls).get_param_value p = Outcome.returned par.default_val ∧
    (p = Hermes2DApiParam.numThreads → par.default_val = 8) ∧
    (p = Hermes2DApiParam.secondDerivatives → par.default_val = 0) := by
  refine ⟨by decide, rfl, by decide, ?_, ?_, ?_⟩
  · have h1 := Api2D.run_frame calls Api2D.new p hp
    rw [hreg] at h1
    have hset : par.user_set = false := by
      cases p with
      | numThreads =>
        have : par = Parameter.new NUM_THREADS := by
          have h0 : StdMap.find Hermes2DApiParam.less Api2D.new.parameters
              Hermes2DApiParam.numThreads = some (Parameter.new NUM_THREADS) := by decide
          rw [h0] at hreg; exact (Option.some.inj hreg).symm
        rw [this]; rfl
      | secondDerivatives =>
        have : par = Parameter.new 0 := by
          have h0 : StdMap.find Hermes2DApiParam.less Api2D.new.parameters
              Hermes2DApiParam.secondDerivatives = some (Parameter.new 0) := by decide
          rw [h0] at hreg; exact (Option.some.inj hreg).symm
        rw [this]; rfl
      | other n =>
        exfalso
        simp [Api2D.new, StdMap.find, StdMap.findEntry, StdMap.insert, StdMap.equiv,
          Hermes2DApiParam.less, Hermes2DApiParam.value] at hreg
        omega
    simp [Api2D.get_param_value, h1, hset]
  · intro hp0
    subst hp0
    have h0 : StdMap.find Hermes2DApiParam.less Api2D.new.parameters
        Hermes2DApiParam.numThreads = some (Parameter.new NUM_THREADS) := by decide
    rw [h0] at hreg
    rw [← Option.some.inj hreg]; rfl
  · intro hp0
    subst hp0
    have h0 : StdMap.find Hermes2DApiParam.less Api2D.new.parameters
        Hermes2DApiParam.secondDerivatives = some (Parameter.new 0) := by decide
    rw [h0] at hreg
    rw [← Option.some.inj hreg]; rfl

theorem get_param_value_default_witness :
    (Api2D.new.run [(Hermes2DApiParam.secondDerivatives, 1), (Hermes2DApiParam.other 3, 5),
      (Hermes2DApiParam.secondDerivatives, 2)]).get_param_value Hermes2DApiParam.numThreads =
      Outcome.returned 8 :=
  (get_param_value_default
    [(Hermes2DApiParam.secondDerivatives, 1), (Hermes2DApiParam.other 3, 5),
      (Hermes2DApiParam.secondDerivatives, 2)]
    Hermes2DApiParam.numThreads (Parameter.new 8) (by decide) (by decide)).2.2.2.1

/-- C8: `get_param_value(p)` throws if and only if `p` is not in the parameter table, and
`set_param_value(p, v)` throws if and only if `p` is not in the parameter table; when
`set_param_value` throws, it leaves the state as it was. -/
theorem param_value_throws_iff (s : Api2D) (p : Hermes2DApiParam) (v : Int) :
    ((∃ e, s.get_param_value p = Outcome.thrown e) ↔ ¬ s.registered p) ∧
    ((∃ e, (s.set_param_value p v).1 = Outcome.thrown e) ↔ ¬ s.registered p) ∧
    ((∃ e, (s.set_param_value p v).1 = Outcome.thrown e) → (s.set_param_value p v).2 = s) := by
  unfold Api2D.registered
  cases h : StdMap.find Hermes2DApiParam.less s.parameters p with
  | none =>
    refine ⟨?_, ?_, ?_⟩
    · simp [Api2D.get_param_value, h]
    · simp [Api2D.set_param_value_thrown s p v h]
    · intro _; rw [Api2D.set_param_value_thrown s p v h]
  | some par =>
    have h1 := (Api2D.set_param_value_returned s p v par h).1
    refine ⟨?_, ?_, ?_⟩
    · simp only [Api2D.get_param_value, h, Option.isSome_some, not_true_eq_false, iff_false,
        not_exists]
      intro e
      split_ifs
      · cases par.user_val <;> simp
      · simp
    · simp [h1]
    · rintro ⟨e, he⟩
      rw [h1] at he
      cases he

/-! ## The claim on the sparse structure -/

theorem mem_add_block (I J : Nat) (e : Element) (I' J' r c : Nat) :
    (I', J', r, c) ∈ add_block I J e ↔ I' = I ∧ J' = J ∧ r ∈ e.dofs I ∧ c ∈ e.dofs J := by
  simp only [add_block, List.mem_flatMap, List.mem_map, Prod.mk.injEq]
  constructor
  · rintro ⟨r', hr', c', hc', h1, h2, h3, h4⟩
    subst h1 h2 h3 h4
    exact ⟨rfl, rfl, hr', hc'⟩
  · rintro ⟨h1, h2, hr, hc⟩
    exact ⟨r, hr, c, hc, h1.symm, h2.symm, rfl, rfl⟩

/-- C9, as stated, fails: with two matrix forms of block (0, 0), one marked on domain 1 and one on
domain 2, the pattern of block (0, 0) holds the entry (1, 1) of the element of domain 2, which is
in no cross product of an element of domain 1. -/
theorem create_sparse_structure_union_counterexample :
    (⟨0, 0, 1⟩ : MatrixForm) ∈ [(⟨0, 0, 1⟩ : MatrixForm), ⟨0, 0, 2⟩] ∧
    ¬ (∀ r c : Nat,
      (0, 0, r, c) ∈ create_sparse_structure 1 [⟨0, 0, 1⟩, ⟨0, 0, 2⟩]
          [⟨1, [[0]]⟩, ⟨2, [[1]]⟩] false ↔
        unionOverDomain [⟨1, [[0]]⟩, ⟨2, [[1]]⟩] 1 0 0 r c) := by
  refine ⟨by decide, fun h => ?_⟩
  have h1 := (h 1 1).mp (by decide)
  obtain ⟨e, he, hm, hr, _⟩ := h1
  simp only [List.mem_cons, List.mem_singleton, List.not_mem_nil, or_false] at he
  rcases he with rfl | rfl
  · revert hr; decide
  · revert hm; decide

/-- C9, amended: after `create_sparse_structure`, for every pair of spaces (I, J), the nonzero
pattern of matrix block (I, J) equals the union of the cross products of the local DOF list for I
with the local DOF list for J, taken over the elements whose marker carries some matrix form of
block (I, J) and, when `force_diagonal_blocks` is set and I = J is one of the spaces, over all
elements. -/
theorem create_sparse_structure_pattern (num_spaces : Nat) (wf : List MatrixForm)
    (elements : List Element) (force_diagonal_blocks : Bool) (I J r c : Nat) :
    (I, J, r, c) ∈ create_sparse_structure num_spaces wf elements force_diagonal_blocks ↔
      ∃ e ∈ elements,
        ((∃ f ∈ wf, f.i = I ∧ f.j = J ∧ f.area = e.marker) ∨
          (force_diagonal_blocks = true ∧ I = J ∧ I < num_spaces)) ∧
        r ∈ e.dofs I ∧ c ∈ e.dofs J := by
  unfold create_sparse_structure
  rw [List.mem_flatMap]
  refine exists_congr fun e => and_congr_right fun _ => ?_
  rw [List.mem_append, List.mem_flatMap]
  constructor
  · rintro (⟨f, hf, hmem⟩ | hdiag)
    · rw [List.mem_filter] at hf
      rw [mem_add_block] at hmem
      obtain ⟨h1, h2, hr, hc⟩ := hmem
      subst h1 h2
      exact ⟨Or.inl ⟨f, hf.1, rfl, rfl, by simpa using hf.2⟩, hr, hc⟩
    · cases force_diagonal_blocks with
      | false => simp at hdiag
      | true =>
        simp only [if_true, List.mem_flatMap, List.mem_range] at hdiag
        obtain ⟨K, hK, hmem⟩ := hdiag
        rw [mem_add_block] at hmem
        obtain ⟨h1, h2, hr, hc⟩ := hmem
        subst h1 h2
        exact ⟨Or.inr ⟨rfl, rfl, hK⟩, hr, hc⟩
  · rintro ⟨⟨f, hf, h1, h2, h3⟩ | ⟨hflag, hIJ, hlt⟩, hr, hc⟩
    · left
      refine ⟨f, List.mem_filter.mpr ⟨hf, by simpa using h3⟩, ?_⟩
      rw [mem_add_block]
      exact ⟨h1.symm, h2.symm, h1 ▸ hr, h2 ▸ hc⟩
    · right
      subst hflag hIJ
      simp only [if_true, List.mem_flatMap, List.mem_range]
      exact ⟨I, hlt, (mem_add_block _ _ _ _ _ _ _).mpr ⟨rfl, rfl, hr, hc⟩⟩

/-! ## Intervals of transformation paths -/

section Intervals

variable {K : Type} [LinearOrderedField K]

theorem half_eq (hi x : Nat) : half K hi x = 0 ∨ half K hi x = 1 := by
  unfold half
  split_ifs
  · exact Or.inr rfl
  · exact Or.inl rfl

theorem covers_nil (hi : Nat) (y : K) : covers K hi [] y ↔ 0 ≤ y ∧ y < 1 := by
  simp [covers, intervalStart, intervalLength]

theorem covers_cons (hi x : Nat) (xs : List Nat) (y : K) :
    covers K hi (x :: xs) y ↔ covers K hi xs (2 * y - half K hi x) := by
  simp only [covers, intervalStart, intervalLength, List.length_cons, pow_succ]
  constructor
  · rintro ⟨h1, h2⟩
    constructor <;> linarith
  · rintro ⟨h1, h2⟩
    constructor <;> linarith

theorem covers_range (hi : Nat) (p : List Nat) (y : K) (h : covers K hi p y) :
    0 ≤ y ∧ y < 1 := by
  induction p generalizing y with
  | nil => exact (covers_nil hi y).mp h
  | cons x xs ih =>
    have h' := ih _ ((covers_cons hi x xs y).mp h)
    rcases half_eq (K := K) hi x with h0 | h1
    · rw [h0] at h'; constructor <;> linarith [h'.1, h'.2]
    · rw [h1] at h'; constructor <;> linarith [h'.1, h'.2]

theorem covers_of_append (hi : Nat) (p q : List Nat) (y : K) (h : covers K hi (p ++ q) y) :
    covers K hi p y := by
  induction p generalizing y with
  | nil => exact (covers_nil hi y).mpr (covers_range hi _ y h)
  | cons x xs ih =>
    rw [List.cons_append, covers_cons] at h
    rw [covers_cons]
    exact ih _ h

theorem covers_diverge (hi a b : Nat) (c q1 q2 : List Nat) (y : K)
    (hab : half K hi a ≠ half K hi b) :
    ¬ (covers K hi (c ++ a :: q1) y ∧ covers K hi (c ++ b :: q2) y) := by
  induction c generalizing y with
  | nil =>
    rintro ⟨h1, h2⟩
    simp only [List.nil_append, covers_cons] at h1 h2
    have r1 := covers_range hi _ _ h1
    have r2 := covers_range hi _ _ h2
    rcases half_eq (K := K) hi a with ha | ha <;> rcases half_eq (K := K) hi b with hb | hb <;>
      rw [ha] at r1 hab <;> rw [hb] at r2 hab
    · exact hab rfl
    · linarith [r1.2, r2.1]
    · linarith [r1.1, r2.2]
    · exact hab rfl
  | cons x xs ih =>
    rintro ⟨h1, h2⟩
    rw [List.cons_append, covers_cons] at h1 h2
    exact ih _ ⟨h1, h2⟩

theorem intervalLength_pos (p : List Nat) : (0 : K) < intervalLength K p := by
  unfold intervalLength
  positivity

theorem covers_start (hi : Nat) (p : List Nat) : covers K hi p (intervalStart K hi p) :=
  ⟨le_refl _, by linarith [intervalLength_pos (K := K) p]⟩

theorem half_ne {lo hi : Nat} (hne : lo ≠ hi) {a b : Nat} (ha : a = lo ∨ a = hi)
    (hb : b = lo ∨ b = hi) (hab : a ≠ b) : half K hi a ≠ half K hi b := by
  unfold half
  rcases ha with rfl | rfl <;> rcases hb with rfl | rfl
  · exact absurd rfl hab
  · simp [hne]
  · simp [hne]
  · exact absurd rfl hab

end Intervals

theorem exists_diverge (p q : List Nat) (h1 : ¬ p <+: q) (h2 : ¬ q <+: p) :
    ∃ c a b p' q', a ≠ b ∧ p = c ++ a :: p' ∧ q = c ++ b :: q' := by
  induction p generalizing q with
  | nil => exact absurd List.nil_prefix h1
  | cons a p ih =>
    cases q with
    | nil => exact absurd List.nil_prefix h2
    | cons b q =>
      by_cases hab : a = b
      · subst hab
        have h1' : ¬ p <+: q := fun h => h1 ((List.prefix_cons_inj a).mpr h)
        have h2' : ¬ q <+: p := fun h => h2 ((List.prefix_cons_inj a).mpr h)
        obtain ⟨c, a', b', p', q', hne, hp, hq⟩ := ih q h1' h2'
        exact ⟨a :: c, a', b', p', q', hne, by rw [hp]; rfl, by rw [hq]; rfl⟩
      · exact ⟨[], a, b, p, q, hab, rfl, rfl⟩

/-! ## The multimesh tree: nodes reached and leaves -/

theorem reach_null (p : List Nat) : reach .null p ↔ False := by
  cases p <;> simp [reach]

theorem reach_nil_iff (n : NeighborNode) : reach n [] ↔ n ≠ .null := by
  cases n <;> simp [reach]

theorem reach_leaf (t : Nat) (p : List Nat) : reach (.node t .null .null) p ↔ p = [] := by
  cases p <;> simp [reach]

theorem reach_ne_null {n : NeighborNode} {p : List Nat} (h : reach n p) : n ≠ .null := by
  rintro rfl
  exact (reach_null p).mp h

theorem gt_node (t : Nat) (l r : NeighborNode) :
    (NeighborNode.node t l r).get_transformation = t := rfl

theorem isNull_null : NeighborNode.null.isNull = true := rfl

theorem isNull_node (t : Nat) (l r : NeighborNode) :
    (NeighborNode.node t l r).isNull = false := rfl

theorem treeInv_leaf (lo hi t : Nat) : TreeInv lo hi (.node t .null .null) := by
  simp [TreeInv]

theorem insert_spec (lo hi : Nat) (hne : lo ≠ hi) (s : List Nat) :
    ∀ n : NeighborNode, n ≠ .null → TreeInv lo hi n → (∀ x ∈ s, x = lo ∨ x = hi) →
      ∃ n', insert_into_multimesh_tree n s = some n' ∧ n' ≠ .null ∧
        n'.get_transformation = n.get_transformation ∧ TreeInv lo hi n' ∧
        ∀ p, reach n' p ↔ (reach n p ∨ p <+: s) := by
  induction s with
  | nil =>
    intro n hn hinv _
    cases n with
    | null => exact absurd rfl hn
    | node t l r =>
      refine ⟨.node t l r, rfl, hn, rfl, hinv, fun p => ?_⟩
      constructor
      · exact fun h => Or.inl h
      · rintro (h | h)
        · exact h
        · rw [List.prefix_nil] at h
          subst h
          simp [reach]
  | cons x xs ih =>
    intro n hn hinv hs
    have hx : x = lo ∨ x = hi := hs x (List.mem_cons_self _ _)
    have hxs : ∀ y ∈ xs, y = lo ∨ y = hi := fun y hy => hs y (List.mem_cons_of_mem _ hy)
    cases n with
    | null => exact absurd rfl hn
    | node t l r =>
      obtain ⟨hlr, hl, hr, hil, hir⟩ := hinv
      cases l with
      | null =>
        have hrn : r = .null := hlr rfl
        subst hrn
        obtain ⟨son, hson, hsn, hst, hsi, hsr⟩ :=
          ih (.node x .null .null) (by simp) (treeInv_leaf lo hi x) hxs
        refine ⟨.node t son .null, ?_, by simp, rfl, ?_, fun p => ?_⟩
        · simp [insert_into_multimesh_tree, isNull_null, isNull_node, hson]
        · refine ⟨fun h => absurd h hsn, fun _ => ?_, fun h => absurd rfl h, hsi, trivial⟩
          rw [hst]; exact hx
        · cases p with
          | nil => simp [reach]
          | cons y ys =>
            simp only [reach, hst, gt_node, hsr, reach_leaf,
              reach_null, and_false, or_false, false_or, List.cons_prefix_cons]
            constructor
            · rintro ⟨rfl, h | h⟩
              · subst h; exact ⟨rfl, List.nil_prefix⟩
              · exact ⟨rfl, h⟩
            · rintro ⟨rfl, h⟩
              exact ⟨rfl, Or.inr h⟩
      | node tl ll lr =>
        have hl' := hl (by simp)
        simp only [gt_node] at hl'
        by_cases htl : tl = x
        · subst htl
          obtain ⟨son, hson, hsn, hst, hsi, hsr⟩ := ih (.node tl ll lr) (by simp) hil hxs
          simp only [gt_node] at hst
          refine ⟨.node t son r, ?_, by simp, rfl, ?_, fun p => ?_⟩
          · simp [insert_into_multimesh_tree, isNull_null, isNull_node,
              gt_node, hson]
          · refine ⟨fun h => absurd h hsn, fun _ => ?_, fun h => ?_, hsi, hir⟩
            · rw [hst]; exact hl'
            · rw [hst]; exact hr h
          · cases p with
            | nil => simp [reach]
            | cons y ys =>
              simp only [reach, hst, gt_node, hsr,
                List.cons_prefix_cons]
              constructor
              · rintro (⟨rfl, h | h⟩ | h)
                · exact Or.inl (Or.inl ⟨rfl, h⟩)
                · exact Or.inr ⟨rfl, h⟩
                · exact Or.inl (Or.inr h)
              · rintro ((⟨rfl, h⟩ | h) | ⟨rfl, h⟩)
                · exact Or.inl ⟨rfl, Or.inl h⟩
                · exact Or.inr h
                · exact Or.inl ⟨rfl, Or.inr h⟩
        · cases r with
          | null =>
            obtain ⟨son, hson, hsn, hst, hsi, hsr⟩ :=
              ih (.node x .null .null) (by simp) (treeInv_leaf lo hi x) hxs
            simp only [gt_node] at hst
            refine ⟨.node t (.node tl ll lr) son, ?_, by simp, rfl, ?_, fun p => ?_⟩
            · simp [insert_into_multimesh_tree, isNull_null, isNull_node,
                gt_node, htl, hson]
            · refine ⟨fun h => by simp at h, fun _ => hl', fun _ => ?_, hil, hsi⟩
              rw [hst]
              exact ⟨hx, fun h => htl h.symm⟩
            · cases p with
              | nil => simp [reach]
              | cons y ys =>
                simp only [reach, hst, gt_node, hsr, reach_leaf,
                  reach_null, and_false, or_false, List.cons_prefix_cons]
                constructor
                · rintro (h | ⟨rfl, h | h⟩)
                  · exact Or.inl h
                  · subst h; exact Or.inr ⟨rfl, List.nil_prefix⟩
                  · exact Or.inr ⟨rfl, h⟩
                · rintro (h | ⟨rfl, h⟩)
                  · exact Or.inl h
                  · exact Or.inr ⟨rfl, Or.inr h⟩
          | node tr rl rr =>
            obtain ⟨hr1, hr2⟩ := hr (by simp)
            simp only [gt_node] at hr1 hr2
            have htr : tr = x := by
              rcases hx with rfl | rfl <;> rcases hl' with rfl | rfl <;>
                rcases hr1 with rfl | rfl <;>
                first
                | rfl
                | exact absurd rfl htl
                | exact absurd rfl hr2
            subst htr
            obtain ⟨son, hson, hsn, hst, hsi, hsr⟩ := ih (.node tr rl rr) (by simp) hir hxs
            simp only [gt_node] at hst
            refine ⟨.node t (.node tl ll lr) son, ?_, by simp, rfl, ?_, fun p => ?_⟩
            · simp [insert_into_multimesh_tree, isNull_null, isNull_node,
                gt_node, htl, hson]
            · refine ⟨fun h => by simp at h, fun _ => hl', fun _ => ?_, hil, hsi⟩
              rw [hst]
              exact ⟨hr1, hr2⟩
            · cases p with
              | nil => simp [reach]
              | cons y ys =>
                simp only [reach, hst, gt_node, hsr,
                  List.cons_prefix_cons]
                constructor
                · rintro (h | ⟨rfl, h | h⟩)
                  · exact Or.inl (Or.inl h)
                  · exact Or.inl (Or.inr ⟨rfl, h⟩)
                  · exact Or.inr ⟨rfl, h⟩
                · rintro ((h | ⟨rfl, h⟩) | ⟨rfl, h⟩)
                  · exact Or.inl h
                  · exact Or.inr ⟨rfl, Or.inl h⟩
                  · exact Or.inr ⟨rfl, Or.inr h⟩

theorem insert_all_spec (lo hi : Nat) (hne : lo ≠ hi) (L : List (List Nat)) :
    ∀ n : NeighborNode, n ≠ .null → TreeInv lo hi n →
      (∀ s ∈ L, ∀ x ∈ s, x = lo ∨ x = hi) →
      ∃ n', insert_all (some n) L = some n' ∧ n' ≠ .null ∧ TreeInv lo hi n' ∧
        ∀ p, reach n' p ↔ (reach n p ∨ ∃ s ∈ L, p <+: s) := by
  induction L with
  | nil =>
    intro n hn hinv _
    exact ⟨n, rfl, hn, hinv, fun p => by simp⟩
  | cons s ss ih =>
    intro n hn hinv hL
    obtain ⟨n1, h1, hn1, _, hinv1, hr1⟩ :=
      insert_spec lo hi hne s n hn hinv (hL s (List.mem_cons_self _ _))
    obtain ⟨n2, h2, hn2, hinv2, hr2⟩ :=
      ih n1 hn1 hinv1 (fun s' hs' => hL s' (List.mem_cons_of_mem _ hs'))
    refine ⟨n2, ?_, hn2, hinv2, fun p => ?_⟩
    · simp only [insert_all, Option.some_bind, h1]
      exact h2
    · rw [hr2, hr1]
      simp only [List.mem_cons, exists_eq_or_imp]
      tauto

theorem traverse_null_of_mem {n : NeighborNode} {q : List Nat}
    (h : q ∈ traverse_multimesh_tree n) : n ≠ .null := by
  rintro rfl
  simp [traverse_multimesh_tree] at h

theorem traverse_spec (lo hi : Nat) (n : NeighborNode) (hinv : TreeInv lo hi n) :
    (∀ q, q ∈ traverse_multimesh_tree n ↔ (reach n q ∧ ∀ x, ¬ reach n (q ++ [x]))) ∧
      (traverse_multimesh_tree n).Nodup := by
  induction n with
  | null =>
    refine ⟨fun q => ?_, ?_⟩
    · simp [traverse_multimesh_tree, reach_null]
    · simp [traverse_multimesh_tree]
  | node t l r ihl ihr =>
    obtain ⟨hlr, hl, hr, hil, hir⟩ := hinv
    obtain ⟨ml, ndl⟩ := ihl hil
    obtain ⟨mr, ndr⟩ := ihr hir
    by_cases hleaf : l = .null
    · have hrn := hlr hleaf
      subst hleaf hrn
      refine ⟨fun q => ?_, ?_⟩
      · simp only [traverse_multimesh_tree, isNull_null, Bool.and_self, if_true,
          List.mem_singleton, reach_leaf]
        constructor
        · rintro rfl
          exact ⟨rfl, fun x => by simp⟩
        · exact fun h => h.1
      · simp [traverse_multimesh_tree, isNull_null]
    · have hnl : l.isNull = false := by cases l <;> simp_all [NeighborNode.isNull]
      have hrl : reach l [] := (reach_nil_iff l).mpr hleaf
      have hdiff : ∀ p, reach r p → r.get_transformation ≠ l.get_transformation :=
        fun p hp => (hr (reach_ne_null hp)).2
      have htrav : traverse_multimesh_tree (.node t l r) =
          (traverse_multimesh_tree l).map (fun p => l.get_transformation :: p) ++
          (traverse_multimesh_tree r).map (fun p => r.get_transformation :: p) := by
        simp [traverse_multimesh_tree, hnl]
      rw [htrav]
      refine ⟨fun q => ?_, ?_⟩
      · cases q with
        | nil =>
          simp only [List.mem_append, List.mem_map, reduceCtorEq, and_false, exists_false,
            or_self, false_iff, not_and, not_forall, not_not]
          intro _
          exact ⟨l.get_transformation, Or.inl ⟨rfl, hrl⟩⟩
        | cons y ys =>
          simp only [List.mem_append, List.mem_map, List.cons.injEq, List.cons_append, reach,
            ml, mr]
          constructor
          · rintro (⟨q', ⟨h1, h2⟩, rfl, rfl⟩ | ⟨q', ⟨h1, h2⟩, rfl, rfl⟩)
            · refine ⟨Or.inl ⟨rfl, h1⟩, fun x => ?_⟩
              rintro (⟨_, h⟩ | ⟨h3, h⟩)
              · exact h2 x h
              · exact hdiff _ h h3
            · refine ⟨Or.inr ⟨rfl, h1⟩, fun x => ?_⟩
              rintro (⟨h3, _⟩ | ⟨_, h⟩)
              · exact hdiff _ h1 h3.symm
              · exact h2 x h
          · rintro ⟨⟨rfl, h1⟩ | ⟨rfl, h1⟩, h2⟩
            · exact Or.inl ⟨ys, ⟨h1, fun x hx => h2 x (Or.inl ⟨rfl, hx⟩)⟩, rfl, rfl⟩
            · exact Or.inr ⟨ys, ⟨h1, fun x hx => h2 x (Or.inr ⟨rfl, hx⟩)⟩, rfl, rfl⟩
      · refine List.Nodup.append ?_ ?_ ?_
        · exact ndl.map (fun a b h => (List.cons.inj h).2)
        · exact ndr.map (fun a b h => (List.cons.inj h).2)
        · intro q h1 h2
          simp only [List.mem_map] at h1 h2
          obtain ⟨q1, _, rfl⟩ := h1
          obtain ⟨q2, hq2, h⟩ := h2
          have hrn : r ≠ .null := traverse_null_of_mem hq2
          exact (hr hrn).2 (List.cons.inj h).1

/-! ## The leaves of the multimesh tree tile the edge -/

theorem tiles_of_reach (K : Type) [LinearOrderedField K] (lo hi : Nat) (hne : lo ≠ hi)
    (T : NeighborNode) (hinv : TreeInv lo hi T) (meshes : List (List (List Nat)))
    (hm : ∀ S ∈ meshes, TilesEdge K lo hi S)
    (hreach : ∀ p, reach T p ↔ (p = [] ∨ ∃ s ∈ meshes.flatten, p <+: s)) :
    TilesEdge K lo hi (traverse_multimesh_tree T) := by
  obtain ⟨hmem, hnodup⟩ := traverse_spec lo hi T hinv
  -- the paths of the tree are made of `lo` and `hi`
  have hvalidL : ∀ s ∈ meshes.flatten, ∀ x ∈ s, x = lo ∨ x = hi := by
    intro s hs x hx
    obtain ⟨S, hS, hsS⟩ := List.mem_flatten.mp hs
    exact (hm S hS).1 s hsS x hx
  have hvalid : ∀ p, reach T p → ∀ x ∈ p, x = lo ∨ x = hi := by
    intro p hp x hx
    rcases (hreach p).mp hp with rfl | ⟨s, hs, hps⟩
    · simp at hx
    · exact hvalidL s hs x (hps.subset hx)
  -- the paths of the tree are closed under prefixes
  have hclosed : ∀ p q, reach T (p ++ q) → reach T p := by
    intro p q hpq
    rcases (hreach _).mp hpq with h | ⟨s, hs, hps⟩
    · exact (hreach p).mpr (Or.inl (List.append_eq_nil.mp h).1)
    · exact (hreach p).mpr (Or.inr ⟨s, hs, (List.prefix_append p q).trans hps⟩)
  -- and are no longer than the sequences inserted
  obtain ⟨B, hbound⟩ : ∃ B : Nat, ∀ p, reach T p → p.length ≤ B := by
    refine ⟨(meshes.flatten.map List.length).sum, fun p hp => ?_⟩
    rcases (hreach p).mp hp with rfl | ⟨s, hs, hps⟩
    · simp
    · exact hps.length_le.trans (List.le_sum_of_mem (List.mem_map_of_mem _ hs))
  refine ⟨fun p hp => hvalid p ((hmem p).mp hp).1, ?_, ?_⟩
  · -- two different leaves diverge, so their intervals do not overlap
    refine hnodup.pairwise_of_forall_ne fun p hp q hq hpq => ?_
    obtain ⟨hp1, hp2⟩ := (hmem p).mp hp
    obtain ⟨hq1, hq2⟩ := (hmem q).mp hq
    have key : ∀ a b : List Nat, reach T b → (∀ x, ¬ reach T (a ++ [x])) → a ≠ b →
        ¬ a <+: b := by
      rintro a b hb ha hab ⟨r, rfl⟩
      cases r with
      | nil => simp at hab
      | cons x r =>
        apply ha x
        apply hclosed (a ++ [x]) r
        simpa using hb
    obtain ⟨c, a, b, p', q', hab, rfl, rfl⟩ :=
      exists_diverge p q (key p q hq1 hp2 hpq) (key q p hp1 hq2 (Ne.symm hpq))
    intro y
    exact covers_diverge hi a b c p' q' y
      (half_ne hne (hvalid _ hp1 a (by simp)) (hvalid _ hq1 b (by simp)) hab)
  · -- every point of the edge is in the interval of a leaf
    intro y hy0 hy1
    have step : ∀ k : Nat, ∀ q, reach T q → covers K hi q y →
        B ≤ q.length + k →
        ∃ p ∈ traverse_multimesh_tree T, covers K hi p y := by
      intro k
      induction k with
      | zero =>
        intro q hq hc hk
        refine ⟨q, (hmem q).mpr ⟨hq, fun x hx => ?_⟩, hc⟩
        have := hbound _ hx
        simp only [List.length_append, List.length_singleton] at this
        omega
      | succ k ih =>
        intro q hq hc hk
        by_cases hleaf : ∀ x, ¬ reach T (q ++ [x])
        · exact ⟨q, (hmem q).mpr ⟨hq, hleaf⟩, hc⟩
        · push_neg at hleaf
          obtain ⟨x, hx⟩ := hleaf
          rcases (hreach _).mp hx with h | ⟨s, hs, hqs⟩
          · simp at h
          · obtain ⟨S, hS, hsS⟩ := List.mem_flatten.mp hs
            obtain ⟨hSv, hSp, hSc⟩ := hm S hS
            obtain ⟨s', hs'S, hs'c⟩ := hSc y hy0 hy1
            have hs'L : s' ∈ meshes.flatten := List.mem_flatten.mpr ⟨S, hS, hs'S⟩
            have hsym : Symmetric (fun p q : List Nat =>
                ∀ y : K, ¬ (covers K hi p y ∧ covers K hi q y)) :=
              fun _ _ h z hz => h z ⟨hz.2, hz.1⟩
            by_cases h1 : s' <+: q
            · -- a sequence of the mesh would contain another one
              exfalso
              have hs's : s' <+: s := h1.trans ((List.prefix_append q [x]).trans hqs)
              have hne' : s' ≠ s := by
                intro h
                have h2 := h1.length_le
                have h3 := hqs.length_le
                rw [h] at h2
                simp only [List.length_append, List.length_singleton] at h3
                omega
              obtain ⟨r, hr⟩ := hs's
              have hcs := covers_start (K := K) hi s
              have hcs' : covers K hi s' (intervalStart K hi s) := by
                apply covers_of_append hi s' r
                rw [hr]; exact hcs
              exact hSp.forall hsym hs'S hsS hne' _ ⟨hcs', hcs⟩
            · by_cases h2 : q <+: s'
              · obtain ⟨r, hr⟩ := h2
                cases r with
                | nil =>
                  exfalso
                  apply h1
                  rw [← hr]; simp
                | cons x' r' =>
                  have hpre : q ++ [x'] <+: s' := ⟨r', by rw [← hr]; simp⟩
                  have hreach' : reach T (q ++ [x']) := (hreach _).mpr (Or.inr ⟨s', hs'L, hpre⟩)
                  have hc' : covers K hi (q ++ [x']) y := by
                    apply covers_of_append hi (q ++ [x']) r'
                    have : q ++ [x'] ++ r' = s' := by rw [← hr]; simp
                    rw [this]; exact hs'c
                  apply ih (q ++ [x']) hreach' hc'
                  simp only [List.length_append, List.length_singleton]
                  omega
              · exfalso
                obtain ⟨c, a, b, q', s'', hab, rfl, rfl⟩ := exists_diverge q s' h2 h1
                exact covers_diverge hi a b c q' s'' y
                  (half_ne hne (hvalid _ hq a (by simp)) (hSv _ hs'S b (by simp)) hab)
                  ⟨hc, hs'c⟩
    exact step B [] ((hreach []).mpr (Or.inl rfl)) ((covers_nil hi y).mpr ⟨hy0, hy1⟩)
      (by simp)

theorem tilesEdge_two_halves : TilesEdge ℚ 0 1 [[0], [1]] := by
  refine ⟨by decide, ?_, ?_⟩
  · simp only [List.pairwise_cons, List.mem_singleton, forall_eq, List.not_mem_nil,
      false_implies, implies_true, List.Pairwise.nil, and_true]
    rintro y ⟨h1, h2⟩
    norm_num [covers, intervalStart, intervalLength, half] at h1 h2
    linarith [h1.2, h2.1]
  · intro y h0 h1
    by_cases h : y < 1 / 2
    · refine ⟨[0], by simp, ?_⟩
      norm_num [covers, intervalStart, intervalLength, half]
      exact ⟨h0, by linarith⟩
    · refine ⟨[1], by simp, ?_⟩
      norm_num [covers, intervalStart, intervalLength, half]
      exact ⟨by linarith, by linarith⟩

theorem tilesEdge_three_parts : TilesEdge ℚ 0 1 [[1, 0], [1, 1], [0]] := by
  refine ⟨by decide, ?_, ?_⟩
  · simp only [List.pairwise_cons, List.mem_cons, List.mem_singleton, forall_eq_or_imp,
      forall_eq, List.not_mem_nil, false_implies, implies_true, List.Pairwise.nil, and_true]
    refine ⟨⟨?_, ?_⟩, ?_⟩ <;>
    · rintro y ⟨h1, h2⟩
      norm_num [covers, intervalStart, intervalLength, half] at h1 h2
      linarith [h1.1, h1.2, h2.1, h2.2]
  · intro y h0 h1
    by_cases h : y < 1 / 2
    · refine ⟨[0], by simp, ?_⟩
      norm_num [covers, intervalStart, intervalLength, half]
      exact ⟨h0, by linarith⟩
    · by_cases h' : y < 3 / 4
      · refine ⟨[1, 0], by simp, ?_⟩
        norm_num [covers, intervalStart, intervalLength, half]
        exact ⟨by linarith, by linarith⟩
      · refine ⟨[1, 1], by simp, ?_⟩
        norm_num [covers, intervalStart, intervalLength, half]
        exact ⟨by linarith, by linarith⟩

/-! ## The claim on the multimesh tree -/

/-- C10: on an edge whose bisection has the two transformations `lo` and `hi`, if the set of
transformation sequences of every participating mesh tiles the edge, then inserting all of them
into the tree under the root succeeds, and the leaf transformation paths that
`get_multimesh_neighbors_transformations` returns tile the edge exactly once: their intervals are
pairwise non-overlapping and their union is the whole edge. -/
theorem multimesh_tree_leaves_tile_edge (K : Type) [LinearOrderedField K] (lo hi t0 : Nat)
    (hne : lo ≠ hi) (neighbor_searches : List NeighborSearch)
    (h : ∀ ns ∈ neighbor_searches, TilesEdge K lo hi ns.transformations) :
    ∃ tree, build_multimesh_tree (.node t0 .null .null) neighbor_searches = some tree ∧
      TilesEdge K lo hi (get_multimesh_neighbors_transformations tree) := by
  have hm : ∀ S ∈ neighbor_searches.map NeighborSearch.transformations, TilesEdge K lo hi S := by
    intro S hS
    obtain ⟨ns, hns, rfl⟩ := List.mem_map.mp hS
    exact h ns hns
  have hvalid : ∀ s ∈ (neighbor_searches.map NeighborSearch.transformations).flatten,
      ∀ x ∈ s, x = lo ∨ x = hi := by
    intro s hs x hx
    obtain ⟨S, hS, hsS⟩ := List.mem_flatten.mp hs
    exact (hm S hS).1 s hsS x hx
  obtain ⟨tree, hbuild, _, hinv, hreach⟩ :=
    insert_all_spec lo hi hne _ (.node t0 .null .null) (by simp) (treeInv_leaf lo hi t0) hvalid
  refine ⟨tree, hbuild, ?_⟩
  apply tiles_of_reach K lo hi hne tree hinv _ hm
  intro p
  rw [hreach p, reach_leaf]

theorem multimesh_tree_leaves_tile_edge_witness :
    TilesEdge ℚ 0 1 [[0], [1]] ∧ TilesEdge ℚ 0 1 [[1, 0], [1, 1], [0]] ∧
    build_multimesh_tree (.node 0 .null .null) [⟨[[0], [1]]⟩, ⟨[[1, 0], [1, 1], [0]]⟩] =
      some (.node 0 (.node 0 .null .null)
        (.node 1 (.node 0 .null .null) (.node 1 .null .null))) ∧
    TilesEdge ℚ 0 1 [[0], [1, 0], [1, 1]] := by
  obtain ⟨tree, h1, h2⟩ := multimesh_tree_leaves_tile_edge ℚ 0 1 0 (by decide)
    [⟨[[0], [1]]⟩, ⟨[[1, 0], [1, 1], [0]]⟩]
    (by
      intro ns hns
      simp only [List.mem_cons, List.mem_singleton, List.not_mem_nil, or_false] at hns
      rcases hns with rfl | rfl
      · exact tilesEdge_two_halves
      · exact tilesEdge_three_parts)
  have h3 : build_multimesh_tree (.node 0 .null .null)
      [⟨[[0], [1]]⟩, ⟨[[1, 0], [1, 1], [0]]⟩] =
      some (.node 0 (.node 0 .null .null)
        (.node 1 (.node 0 .null .null) (.node 1 .null .null))) := by decide
  rw [h3] at h1
  have h4 := Option.some.inj h1
  subst h4
  exact ⟨tilesEdge_two_halves, tilesEdge_three_parts, h3, h2⟩

/-! ## Forced diagonal blocks -/

/-- C11: when `create_sparse_structure` is called with `force_diagonal_blocks = true` and the
weak form has no matrix form for the diagonal block of space I, the nonzero pattern still holds
the diagonal-block entry (d, d) of every DOF d of I, that is of every DOF in the local DOF list
for I of some element; without the flag the pattern does not hold it. -/
theorem create_sparse_structure_forced_diagonal (num_spaces : Nat) (wf : List MatrixForm)
    (elements : List Element) (I d : Nat) (e : Element) (hI : I < num_spaces)
    (hno : ∀ f ∈ wf, ¬ (f.i = I ∧ f.j = I)) (he : e ∈ elements) (hd : d ∈ e.dofs I) :
    (I, I, d, d) ∈ create_sparse_structure num_spaces wf elements true ∧
    (I, I, d, d) ∉ create_sparse_structure num_spaces wf elements false := by
  constructor
  · unfold create_sparse_structure
    rw [List.mem_flatMap]
    refine ⟨e, he, ?_⟩
    rw [List.mem_append]
    right
    simp only [if_true, List.mem_flatMap, List.mem_range]
    exact ⟨I, hI, (mem_add_block _ _ _ _ _ _ _).mpr ⟨rfl, rfl, hd, hd⟩⟩
  · unfold create_sparse_structure
    rw [List.mem_flatMap]
    rintro ⟨e', _, hmem⟩
    rw [List.mem_append] at hmem
    rcases hmem with hmem | hmem
    · rw [List.mem_flatMap] at hmem
      obtain ⟨f, hf, hfm⟩ := hmem
      rw [mem_add_block] at hfm
      exact hno f (List.mem_filter.mp hf).1 ⟨hfm.1.symm, hfm.2.1.symm⟩
    · simp at hmem

theorem create_sparse_structure_forced_diagonal_witness :
    (0, 0, 5, 5) ∈ create_sparse_structure 2 [⟨0, 1, 7⟩] [⟨7, [[4, 5], [9]]⟩] true ∧
    (0, 0, 5, 5) ∉ create_sparse_structure 2 [⟨0, 1, 7⟩] [⟨7, [[4, 5], [9]]⟩] false :=
  create_sparse_structure_forced_diagonal 2 [⟨0, 1, 7⟩] [⟨7, [[4, 5], [9]]⟩] 0 5
    ⟨7, [[4, 5], [9]]⟩ (by decide) (by decide) (by decide) (by decide)

/-! ## The value `update_ns_subtree` returns -/

theorem toUnsignedInt_zero : toUnsignedInt 0 = 0 := by decide

theorem toUnsignedInt_neg_one : toUnsignedInt (-1) = 4294967295 := by decide

theorem update_ns_subtree_fst (ns : NeighborSearch) (node : NeighborNode) (ith_neighbor : Nat) :
    (update_ns_subtree ns node ith_neighbor).1 =
      if node.get_left_son.isNull && node.get_right_son.isNull then 0 else 4294967295 := by
  unfold update_ns_subtree
  split_ifs
  · exact toUnsignedInt_zero
  · exact toUnsignedInt_neg_one

theorem toSignedInt_neg_one : toSignedInt 4294967295 = -1 := by decide

theorem traverse_ne_nil (n : NeighborNode) (h : n ≠ .null) :
    traverse_multimesh_tree n ≠ [] := by
  induction n with
  | null => exact absurd rfl h
  | node t l r ihl ihr =>
    unfold traverse_multimesh_tree
    split_ifs with hleaf
    · simp
    · intro hnil
      rw [List.append_eq_nil, List.map_eq_nil_iff, List.map_eq_nil_iff] at hnil
      cases l with
      | node tl ll lr => exact ihl (by simp) hnil.1
      | null =>
        cases r with
        | node tr rl rr => exact ihr (by simp) hnil.2
        | null => simp [NeighborNode.isNull] at hleaf

theorem traverse_paths_ne_nil (t : Nat) (l r : NeighborNode)
    (hsons : (l.isNull && r.isNull) = false) :
    ∀ p ∈ traverse_multimesh_tree (.node t l r), p ≠ [] := by
  intro p hp
  unfold traverse_multimesh_tree at hp
  rw [hsons] at hp
  simp only [Bool.false_eq_true, if_false, List.mem_append, List.mem_map] at hp
  rcases hp with ⟨q, _, rfl⟩ | ⟨q, _, rfl⟩ <;> simp

theorem update_ns_subtree_snd_ne (ns : NeighborSearch) (node : NeighborNode)
    (ith_neighbor : Nat)
    (hsons : (node.get_left_son.isNull && node.get_right_son.isNull) = false) :
    (update_ns_subtree ns node ith_neighbor).2 ≠ ns := by
  cases node with
  | null => simp [NeighborNode.get_left_son, NeighborNode.get_right_son,
      NeighborNode.isNull] at hsons
  | node t l r =>
    simp only [NeighborNode.get_left_son, NeighborNode.get_right_son] at hsons
    have hne : traverse_multimesh_tree (.node t l r) ≠ [] := traverse_ne_nil _ (by simp)
    have hpaths := traverse_paths_ne_nil t l r hsons
    unfold update_ns_subtree
    simp only [NeighborNode.get_left_son, NeighborNode.get_right_son, hsons,
      Bool.false_eq_true, if_false]
    intro heq
    have hL : ns.transformations.take ith_neighbor ++
        (traverse_multimesh_tree (.node t l r)).map
          (fun p => ns.transformations.getD ith_neighbor [] ++ p) ++
        ns.transformations.drop (ith_neighbor + 1) = ns.transformations :=
      congrArg NeighborSearch.transformations heq
    by_cases hi : ith_neighbor < ns.transformations.length
    · have hsplit : ns.transformations = ns.transformations.take ith_neighbor ++
          ([ns.transformations.getD ith_neighbor []] ++
            ns.transformations.drop (ith_neighbor + 1)) := by
        calc ns.transformations
            = ns.transformations.take ith_neighbor ++ ns.transformations.drop ith_neighbor :=
              (List.take_append_drop ith_neighbor ns.transformations).symm
          _ = ns.transformations.take ith_neighbor ++
              (ns.transformations[ith_neighbor] ::
                ns.transformations.drop (ith_neighbor + 1)) := by
              rw [List.drop_eq_getElem_cons hi]
          _ = _ := by simp [List.getElem?_eq_getElem hi]
      rw [List.append_assoc] at hL
      conv_rhs at hL => rw [hsplit]
      have h1 := List.append_cancel_left hL
      have h2 := List.append_cancel_right h1
      cases htr : traverse_multimesh_tree (.node t l r) with
      | nil => exact hne htr
      | cons p ps =>
        rw [htr] at h2
        simp only [List.map_cons, List.cons.injEq, List.append_right_eq_self] at h2
        exact hpaths p (by rw [htr]; simp) h2.1
    · have hlen : ns.transformations.length ≤ ith_neighbor := Nat.le_of_not_lt hi
      have h3 := congrArg List.length hL
      simp only [List.length_append, List.length_map, List.length_take, List.length_drop] at h3
      have hpos : 0 < (traverse_multimesh_tree (.node t l r)).length :=
        List.length_pos.mpr hne
      omega

section Adaptive

variable {Scalar : Type} (sub : Nat → List Nat → Scalar) (add : Scalar → Scalar → Scalar)
  (zero : Scalar) (rel : Scalar → Scalar → Double) (tol : Double) (num_sons : Nat)

theorem branches_depth (remaining : Nat) :
    ∀ (order_init : Nat) (result_init : Scalar) (path : List Nat),
      ∀ b ∈ eval_form_adaptive_branches sub add zero rel tol num_sons remaining order_init
          result_init path,
        path <+: b.1 ∧ b.1.length ≤ path.length + remaining := by
  induction remaining with
  | zero =>
    intro order_init result_init path b hb
    simp only [eval_form_adaptive_branches, List.mem_singleton] at hb
    subst hb
    exact ⟨List.prefix_refl _, le_refl _⟩
  | succ r ih =>
    intro order_init result_init path b hb
    simp only [eval_form_adaptive_branches] at hb
    split_ifs at hb with htol
    · simp only [List.mem_singleton] at hb
      subst hb
      exact ⟨List.prefix_refl _, Nat.le_add_right _ _⟩
    · rw [List.mem_flatMap] at hb
      obtain ⟨i, _, hbi⟩ := hb
      obtain ⟨h1, h2⟩ := ih _ _ _ b hbi
      refine ⟨(List.prefix_append path [i]).trans h1, ?_⟩
      simp only [List.length_append, List.length_singleton] at h2
      omega

theorem branches_count (remaining : Nat) :
    ∀ (order_init : Nat) (result_init : Scalar) (path : List Nat),
      (eval_form_adaptive_branches sub add zero rel tol num_sons remaining order_init
        result_init path).length ≤ (max num_sons 1) ^ remaining := by
  induction remaining with
  | zero =>
    intro order_init result_init path
    simp [eval_form_adaptive_branches]
  | succ r ih =>
    intro order_init result_init path
    simp only [eval_form_adaptive_branches]
    split_ifs with htol
    · simp only [List.length_singleton]
      exact Nat.one_le_pow _ _ (by omega)
    · rw [List.length_flatMap]
      have hsum : ∀ x ∈ (List.range num_sons).map (fun i =>
          (eval_form_adaptive_branches sub add zero rel tol num_sons r (order_init + 1)
            (sub (order_init + 1) (path ++ [i])) (path ++ [i])).length),
          x ≤ (max num_sons 1) ^ r := by
        intro x hx
        obtain ⟨i, _, rfl⟩ := List.mem_map.mp hx
        exact ih _ _ _
      have h := List.sum_le_card_nsmul _ _ hsum
      simp only [List.length_map, List.length_range, smul_eq_mul] at h
      calc _ ≤ num_sons * (max num_sons 1) ^ r := h
        _ ≤ (max num_sons 1) * (max num_sons 1) ^ r :=
          Nat.mul_le_mul_right _ (le_max_left _ _)
        _ = (max num_sons 1) ^ (r + 1) := by rw [pow_succ, Nat.mul_comm]

end Adaptive

/-- C13: `eval_form_adaptive` terminates for every form and every element. Its value is the sum
over the finitely many branches at which the recursion terminates; on each branch the subdivision
stops as soon as the relative difference of the two estimates is below the tolerance or the
maximum recursion depth is reached; no terminated branch lies deeper than the maximum depth, and
there are at most `num_sons ^ max_depth` of them. -/
theorem eval_form_adaptive_terminates {Scalar : Type} (sub : Nat → List Nat → Scalar)
    (add : Scalar → Scalar → Scalar) (zero : Scalar) (rel : Scalar → Scalar → Double)
    (tol : Double) (num_sons max_depth order_init : Nat) (result_init : Scalar) :
    eval_form_adaptive sub add zero rel tol num_sons max_depth order_init result_init =
      ((eval_form_adaptive_branches sub add zero rel tol num_sons max_depth order_init
        result_init []).map Prod.snd).foldl add zero ∧
    (∀ b ∈ eval_form_adaptive_branches sub add zero rel tol num_sons max_depth order_init
      result_init [], b.1.length ≤ max_depth) ∧
    (eval_form_adaptive_branches sub add zero rel tol num_sons max_depth order_init
      result_init []).length ≤ (max num_sons 1) ^ max_depth ∧
    (∀ (remaining order : Nat) (init : Scalar) (path : List Nat),
      (Double.lt (rel (((List.range num_sons).map
          (fun i => sub (order + 1) (path ++ [i]))).foldl add zero) init) tol = true ∨
        remaining = 0) →
      eval_form_adaptive_branches sub add zero rel tol num_sons remaining order init path =
        [(path, ((List.range num_sons).map
          (fun i => sub (order + 1) (path ++ [i]))).foldl add zero)]) := by
  refine ⟨rfl, fun b hb => ?_, branches_count sub add zero rel tol num_sons _ _ _ _, ?_⟩
  · have h := (branches_depth sub add zero rel tol num_sons max_depth _ _ _ b hb).2
    simpa using h
  · intro remaining order init path h
    cases remaining with
    | zero => simp [eval_form_adaptive_branches]
    | succ r =>
      rcases h with h | h
      · simp [eval_form_adaptive_branches, h]
      · omega

/-! ## `CompareConst` on keys with a NaN entry -/

theorem CompareConst_trans_of_noNaN {a b c : KeyConst} (ha : a.noNaN) (hb : b.noNaN)
    (hc : c.noNaN) (hab : CompareConst a b = true) (hbc : CompareConst b c = true) :
    CompareConst a c = true := by
  rw [CompareConst_iff_toExt ha hb] at hab
  rw [CompareConst_iff_toExt hb hc] at hbc
  rw [CompareConst_iff_toExt ha hc]
  exact lex_trans_step (lex_trans_step (lex_trans_step (lex_trans_step (lex_trans_step
    (lex_trans_step (lex_trans_step (fun h1 h2 => lt_trans h1 h2))))))) hab hbc

theorem KeyConst.incomparable_iff_fieldsEqual {a b : KeyConst} (ha : a.noNaN) (hb : b.noNaN) :
    a.incomparable b ↔ a.fieldsEqual b := by
  have h : ExactlyOne (CompareConst a b = true) (CompareConst b a = true) (a.fieldsEqual b) := by
    rw [CompareConst_iff_toExt ha hb, CompareConst_iff_toExt hb ha,
      KeyConst.fieldsEqual_iff_toExt ha hb]
    exact exactlyOne_step _ _ (exactlyOne_step _ _ (exactlyOne_step _ _ (exactlyOne_step _ _
      (exactlyOne_step _ _ (exactlyOne_step _ _ (exactlyOne_step _ _ (exactlyOne_base _ _)))))))
  obtain ⟨h1, _, h3, h4⟩ := h
  unfold KeyConst.incomparable
  constructor
  · rintro ⟨hab, hba⟩
    rcases h1 with h | h | h
    · rw [hab] at h; cases h
    · rw [hba] at h; cases h
    · exact h
  · intro he
    constructor
    · cases hv : CompareConst a b
      · rfl
      · exact absurd ⟨hv, he⟩ h3
    · cases hv : CompareConst b a
      · rfl
      · exact absurd ⟨hv, he⟩ h4

/-- C14, as stated, fails: with a NaN entry in the middle key, `CompareConst` puts
`a` before `b` and `b` before `c` but not `a` before `c`; and a key with a NaN entry is
incomparable with two keys of which one precedes the other. -/
theorem CompareConst_nan_not_strict_weak :
    (CompareConst (KeyConst.new 0 0 0 0 ⟨.finite 1, .finite 0, .finite 0, .finite 0⟩)
        (KeyConst.new 1 0 0 0 ⟨.nan, .finite 0, .finite 0, .finite 0⟩) = true ∧
      CompareConst (KeyConst.new 1 0 0 0 ⟨.nan, .finite 0, .finite 0, .finite 0⟩)
        (KeyConst.new 2 0 0 0 ⟨.finite 0, .finite 0, .finite 0, .finite 0⟩) = true ∧
      CompareConst (KeyConst.new 0 0 0 0 ⟨.finite 1, .finite 0, .finite 0, .finite 0⟩)
        (KeyConst.new 2 0 0 0 ⟨.finite 0, .finite 0, .finite 0, .finite 0⟩) = false) ∧
    ((KeyConst.new 0 0 0 0 ⟨.finite 1, .finite 0, .finite 0, .finite 0⟩).incomparable
        (KeyConst.new 0 0 0 0 ⟨.nan, .finite 0, .finite 0, .finite 0⟩) ∧
      (KeyConst.new 0 0 0 0 ⟨.nan, .finite 0, .finite 0, .finite 0⟩).incomparable
        (KeyConst.new 0 0 0 0 ⟨.finite 0, .finite 0, .finite 0, .finite 0⟩) ∧
      ¬ (KeyConst.new 0 0 0 0 ⟨.finite 1, .finite 0, .finite 0, .finite 0⟩).incomparable
        (KeyConst.new 0 0 0 0 ⟨.finite 0, .finite 0, .finite 0, .finite 0⟩)) := by
  refine ⟨⟨by decide, by decide, by decide⟩, ⟨by decide, by decide⟩, ⟨by decide, by decide⟩, ?_⟩
  rintro ⟨_, h⟩
  revert h
  decide

/-- C14, amended: on the `KeyConst` values none of whose inverse-mapping entries is a NaN,
`CompareConst` is a strict weak ordering: `CompareConst a b` and `CompareConst b c` imply
`CompareConst a c`, and the relation "neither key precedes the other" is transitive. -/
theorem CompareConst_strict_weak_of_noNaN (a b c : KeyConst) (ha : a.noNaN) (hb : b.noNaN)
    (hc : c.noNaN) :
    (CompareConst a b = true → CompareConst b c = true → CompareConst a c = true) ∧
    (a.incomparable b → b.incomparable c → a.incomparable c) := by
  refine ⟨CompareConst_trans_of_noNaN ha hb hc, fun hab hbc => ?_⟩
  rw [KeyConst.incomparable_iff_fieldsEqual ha hb, KeyConst.fieldsEqual_iff_toExt ha hb] at hab
  rw [KeyConst.incomparable_iff_fieldsEqual hb hc, KeyConst.fieldsEqual_iff_toExt hb hc] at hbc
  rw [KeyConst.incomparable_iff_fieldsEqual ha hc, KeyConst.fieldsEqual_iff_toExt ha hc]
  obtain ⟨a1, a2, a3, a4, a5, a6, a7, a8⟩ := hab
  obtain ⟨b1, b2, b3, b4, b5, b6, b7, b8⟩ := hbc
  exact ⟨a1.trans b1, a2.trans b2, a3.trans b3, a4.trans b4, a5.trans b5, a6.trans b6,
    a7.trans b7, a8.trans b8⟩

theorem CompareConst_strict_weak_of_noNaN_witness :
    (KeyConst.new 0 0 0 0 ⟨.finite 1, .negZero, .finite 0, .finite 0⟩).incomparable
      (KeyConst.new 0 0 0 0 ⟨.finite 1, .finite 0, .negZero, .finite 0⟩) ∧
    CompareConst (KeyConst.new 0 0 0 0 ⟨.finite 1, .negZero, .finite 0, .finite 0⟩)
      (KeyConst.new 0 0 9 0 ⟨.posInf, .finite 0, .finite 0, .finite 0⟩) = true :=
  ⟨(CompareConst_strict_weak_of_noNaN
      (KeyConst.new 0 0 0 0 ⟨.finite 1, .negZero, .finite 0, .finite 0⟩)
      (KeyConst.new 0 0 0 0 ⟨.finite 1, .finite 0, .finite 0, .finite 0⟩)
      (KeyConst.new 0 0 0 0 ⟨.finite 1, .finite 0, .negZero, .finite 0⟩)
      (by decide) (by decide) (by decide)).2 ⟨by decide, by decide⟩ ⟨by decide, by decide⟩,
    (CompareConst_strict_weak_of_noNaN
      (KeyConst.new 0 0 0 0 ⟨.finite 1, .negZero, .finite 0, .finite 0⟩)
      (KeyConst.new 0 0 5 0 ⟨.finite 1, .finite 0, .finite 0, .finite 0⟩)
      (KeyConst.new 0 0 9 0 ⟨.posInf, .finite 0, .finite 0, .finite 0⟩)
      (by decide) (by decide) (by decide)).1 (by decide) (by decide)⟩

/-! ## The affine-table order restricted to one inverse mapping -/

theorem Double.not_lt_gt_of_same {x y : Double} (h : Double.eq x y = true ∨ x = y) :
    Double.lt x y = false ∧ Double.gt x y = false := by
  rcases h with h | rfl
  · cases x <;> cases y <;> simp_all [Double.lt, Double.gt, Double.eq, Double.toRat]
  · exact ⟨Double.lt_irrefl x, Double.lt_irrefl x⟩

/-- C17: for `KeyConst` values `a`, `b` whose four inverse-mapping entries are pairwise equal
(equal under `==`, or the very same value), `CompareConst a b` equals `CompareNonConst` applied to
the `KeyNonConst` values holding the same (index, order, sub_idx, shapeset_type) as `a` and `b`. -/
theorem CompareConst_eq_CompareNonConst (a b : KeyConst)
    (h00 : Double.eq a.inv_ref_map.e00 b.inv_ref_map.e00 = true ∨
      a.inv_ref_map.e00 = b.inv_ref_map.e00)
    (h01 : Double.eq a.inv_ref_map.e01 b.inv_ref_map.e01 = true ∨
      a.inv_ref_map.e01 = b.inv_ref_map.e01)
    (h10 : Double.eq a.inv_ref_map.e10 b.inv_ref_map.e10 = true ∨
      a.inv_ref_map.e10 = b.inv_ref_map.e10)
    (h11 : Double.eq a.inv_ref_map.e11 b.inv_ref_map.e11 = true ∨
      a.inv_ref_map.e11 = b.inv_ref_map.e11) :
    CompareConst a b =
      CompareNonConst (KeyNonConst.new a.index a.order a.sub_idx a.shapeset_type)
        (KeyNonConst.new b.index b.order b.sub_idx b.shapeset_type) := by
  obtain ⟨l0, g0⟩ := Double.not_lt_gt_of_same h00
  obtain ⟨l1, g1⟩ := Double.not_lt_gt_of_same h01
  obtain ⟨l2, g2⟩ := Double.not_lt_gt_of_same h10
  obtain ⟨l3, g3⟩ := Double.not_lt_gt_of_same h11
  simp only [CompareConst, CompareNonConst, KeyNonConst.new, l0, g0, l1, g1, l2, g2, l3, g3,
    Bool.false_eq_true, if_false]

theorem CompareConst_eq_CompareNonConst_witness :
    CompareConst (KeyConst.new 1 2 3 4 ⟨.finite 1, .negZero, .nan, .posInf⟩)
        (KeyConst.new 1 2 7 0 ⟨.finite 1, .finite 0, .nan, .posInf⟩) =
      CompareNonConst (KeyNonConst.new 1 2 3 4) (KeyNonConst.new 1 2 7 0) :=
  CompareConst_eq_CompareNonConst
    (KeyConst.new 1 2 3 4 ⟨.finite 1, .negZero, .nan, .posInf⟩)
    (KeyConst.new 1 2 7 0 ⟨.finite 1, .finite 0, .nan, .posInf⟩)
    (Or.inl (by decide)) (Or.inl (by decide)) (Or.inr rfl) (Or.inl (by decide))

/-! ## `Api2D`: frame of `set_param_value` and written user values -/

theorem Api2D.get_param_value_congr (s t : Api2D) (q : Hermes2DApiParam)
    (h : StdMap.find Hermes2DApiParam.less s.parameters q =
      StdMap.find Hermes2DApiParam.less t.parameters q) :
    s.get_param_value q = t.get_param_value q := by
  unfold Api2D.get_param_value
  rw [h]

theorem Api2D.set_param_value_registered (s : Api2D) (p q : Hermes2DApiParam) (v : Int) :
    (s.set_param_value p v).2.registered q ↔ s.registered q := by
  unfold Api2D.registered
  by_cases hq : q = p
  · subst hq
    cases h : StdMap.find Hermes2DApiParam.less s.parameters q with
    | none => rw [Api2D.set_param_value_thrown s q v h, h]
    | some par => rw [(Api2D.set_param_value_returned s q v par h).2]; simp
  · rw [Api2D.set_param_value_frame s p q v hq]

theorem Api2D.run_registered (calls : List (Hermes2DApiParam × Int)) (s : Api2D)
    (q : Hermes2DApiParam) : (s.run calls).registered q ↔ s.registered q := by
  induction calls generalizing s with
  | nil => exact Iff.rfl
  | cons c cs ih =>
    show (Api2D.run (s.set_param_value c.1 c.2).2 cs).registered q ↔ _
    rw [ih, Api2D.set_param_value_registered]

theorem Api2D.find_new (p : Hermes2DApiParam) (par : Parameter)
    (h : StdMap.find Hermes2DApiParam.less Api2D.new.parameters p = some par) :
    par.user_set = false := by
  cases p with
  | numThreads =>
    have h0 : StdMap.find Hermes2DApiParam.less Api2D.new.parameters
        Hermes2DApiParam.numThreads = some (Parameter.new NUM_THREADS) := by decide
    rw [h0] at h
    rw [← Option.some.inj h]; rfl
  | secondDerivatives =>
    have h0 : StdMap.find Hermes2DApiParam.less Api2D.new.parameters
        Hermes2DApiParam.secondDerivatives = some (Parameter.new 0) := by decide
    rw [h0] at h
    rw [← Option.some.inj h]; rfl
  | other n =>
    exfalso
    simp [Api2D.new, StdMap.find, StdMap.findEntry, StdMap.insert, StdMap.equiv,
      Hermes2DApiParam.less, Hermes2DApiParam.value] at h
    omega

theorem Api2D.userValWritten_new : Api2D.new.userValWritten := by
  intro p par h hset
  rw [Api2D.find_new p par h] at hset
  cases hset

theorem Api2D.userValWritten_set (s : Api2D) (hs : s.userValWritten) (p : Hermes2DApiParam)
    (v : Int) : (s.set_param_value p v).2.userValWritten := by
  intro q par h hset
  by_cases hq : q = p
  · subst hq
    cases h0 : StdMap.find Hermes2DApiParam.less s.parameters q with
    | none =>
      rw [Api2D.set_param_value_thrown s q v h0] at h
      exact hs q par h hset
    | some par0 =>
      rw [(Api2D.set_param_value_returned s q v par0 h0).2] at h
      rw [← Option.some.inj h]
      rfl
  · rw [Api2D.set_param_value_frame s p q v hq] at h
    exact hs q par h hset

theorem Api2D.userValWritten_run (calls : List (Hermes2DApiParam × Int)) (s : Api2D)
    (hs : s.userValWritten) : (s.run calls).userValWritten := by
  induction calls generalizing s with
  | nil => exact hs
  | cons c cs ih => exact ih _ (Api2D.userValWritten_set s hs c.1 c.2)

/-- C15: `set_param_value(p, v)` changes only the user-set flag and the user value of `p`: for
every other parameter `q`, `get_param_value(q)` gives the same before and after; the parameter
of `p` keeps its default value; and the set of registered parameters is unchanged, so that on an
`Api2D` built by the constructor `numThreads` and `secondDerivatives` stay registered after any
sequence of `set_param_value` calls. -/
theorem set_param_value_frame_effect (s : Api2D) (p : Hermes2DApiParam) (v : Int) :
    (∀ q, q ≠ p → (s.set_param_value p v).2.get_param_value q = s.get_param_value q) ∧
    (∀ par, StdMap.find Hermes2DApiParam.less s.parameters p = some par →
      StdMap.find Hermes2DApiParam.less (s.set_param_value p v).2.parameters p =
        some { default_val := par.default_val, user_set := true, user_val := some v }) ∧
    (∀ q, (s.set_param_value p v).2.registered q ↔ s.registered q) ∧
    (∀ calls : List (Hermes2DApiParam × Int),
      (Api2D.new.run calls).registered Hermes2DApiParam.numThreads ∧
      (Api2D.new.run calls).registered Hermes2DApiParam.secondDerivatives) := by
  refine ⟨fun q hq => ?_, fun par h => ?_, fun q => Api2D.set_param_value_registered s p q v,
    fun calls => ⟨?_, ?_⟩⟩
  · exact Api2D.get_param_value_congr _ _ q (Api2D.set_param_value_frame s p q v hq)
  · exact (Api2D.set_param_value_returned s p v par h).2
  · rw [Api2D.run_registered]; decide
  · rw [Api2D.run_registered]; decide

/-- C16: in every state reachable from the constructor by `set_param_value` calls, a parameter
whose `user_set` flag is true has had its `user_val` written; hence `get_param_value` never
returns the content of the member that the constructor of `Parameter` leaves uninitialised. -/
theorem user_val_written_when_user_set (calls : List (Hermes2DApiParam × Int)) :
    (Api2D.new.run calls).userValWritten ∧
    ∀ p, (Api2D.new.run calls).get_param_value p ≠ Outcome.indeterminate := by
  have hinv := Api2D.userValWritten_run calls Api2D.new Api2D.userValWritten_new
  refine ⟨hinv, fun p => ?_⟩
  unfold Api2D.get_param_value
  cases h : StdMap.find Hermes2DApiParam.less (Api2D.new.run calls).parameters p with
  | none => simp
  | some par =>
    by_cases hset : par.user_set = true
    · have hw := hinv p par h hset
      obtain ⟨w, hw'⟩ := Option.isSome_iff_exists.mp hw
      simp [hset, hw']
    · simp [hset]

/-! ## The test `14-hcurl-adapt`: verdict and stop conditions -/

/-- C18: the test returns `ERROR_SUCCESS`, which is 0, exactly when the final number of degrees of
freedom is below 1400, and returns `ERROR_FAILURE`, which is -1, for every final number of 1400
or more. -/
theorem test_verdict_iff (ndof : Int) :
    (test_verdict ndof = 0 ↔ ndof < 1400) ∧ (test_verdict ndof = -1 ↔ 1400 ≤ ndof) ∧
    ERROR_SUCCESS = 0 ∧ ERROR_FAILURE = -1 := by
  unfold test_verdict ERROR_SUCCESS ERROR_FAILURE
  refine ⟨?_, ?_, rfl, rfl⟩
  · split_ifs with h
    · simp [h]
    · simp [h]
  · split_ifs with h
    · simp; omega
    · simp; omega

/-- C19, evaluated where it fails: in a step in which the number of degrees of freedom is
exactly `NDOF_STOP = 60000`, so has not grown over the limit, and in which the error estimate
is not below `ERR_STOP` and `adapt` reports that it is not done, the test of the DOF limit alone
ends the loop; with 59999 degrees of freedom the same step does not end it. -/
theorem dof_limit_ends_loop_at_limit :
    (adaptivity_step 1 (Double.finite 5) false 60000).done_before_limit = false ∧
    (adaptivity_step 1 (Double.finite 5) false 60000).done = true ∧
    ¬ ((60000 : Int) > NDOF_STOP) ∧
    (adaptivity_step 1 (Double.finite 5) false 59999).done = false := by
  decide

/-- C20: in each step of the adaptivity loop the mesh is adapted exactly when the estimated
relative error is not below `ERR_STOP = 1.0`: if `err_est_rel < ERR_STOP` the loop ends in that
step without a call of `adapt` and without increasing the step counter, and otherwise `adapt` is
called once and the step counter is increased exactly when `adapt` reports that it is not
done. -/
theorem adaptivity_step_adapts_iff (as : Int) (err_est_rel : Double) (adapt_result : Bool)
    (ndof : Int) :
    ERR_STOP = Double.finite 1 ∧
    ((adaptivity_step as err_est_rel adapt_result ndof).adapt_calls = 1 ↔
      Double.lt err_est_rel ERR_STOP = false) ∧
    (Double.lt err_est_rel ERR_STOP = true →
      (adaptivity_step as err_est_rel adapt_result ndof).done = true ∧
      (adaptivity_step as err_est_rel adapt_result ndof).adapt_calls = 0 ∧
      (adaptivity_step as err_est_rel adapt_result ndof).as = as) ∧
    (Double.lt err_est_rel ERR_STOP = false →
      (adaptivity_step as err_est_rel adapt_result ndof).adapt_calls = 1 ∧
      ((adaptivity_step as err_est_rel adapt_result ndof).as = as + 1 ↔
        adapt_result = false) ∧
      (adapt_result = true →
        (adaptivity_step as err_est_rel adapt_result ndof).as = as)) := by
  refine ⟨rfl, ?_, ?_, ?_⟩
  · cases h : Double.lt err_est_rel ERR_STOP <;> simp [adaptivity_step, h]
  · intro h
    simp [adaptivity_step, h]
  · intro h
    cases adapt_result <;> simp [adaptivity_step, h]

/-! ## The test `14-hcurl-adapt`: boundary conditions -/

/-- C21: for every boundary marker `m`, `bc_types(m)` returns `BC_ESSENTIAL` if and only if `m`
is 1 or 6, and returns `BC_NATURAL` for every other marker; `essential_bc_values` returns 0 for
every marker and every point (x, y), the coordinates being any doubles. -/
theorem bc_types_essential_iff (m : Int) (x y : Double) :
    (bc_types m = BCType.BC_ESSENTIAL ↔ m = 1 ∨ m = 6) ∧
    (¬ (m = 1 ∨ m = 6) → bc_types m = BCType.BC_NATURAL) ∧
    (bc_types m = BCType.BC_ESSENTIAL ∨ bc_types m = BCType.BC_NATURAL) ∧
    (essential_bc_values m x y : ℚ) = 0 ∧
    ∀ (scalar : Type) (inst : OfNat scalar 0),
      @essential_bc_values scalar inst m x y = @OfNat.ofNat scalar 0 inst := by
  refine ⟨?_, ?_, ?_, rfl, fun _ _ => rfl⟩
  · unfold bc_types
    split_ifs with h
    · simp [h]
    · simp [h]
  · intro h
    simp [bc_types, h]
  · unfold bc_types
    split_ifs
    · exact Or.inl rfl
    · exact Or.inr rfl

/-! ## Lookup in a search tree under a strict weak ordering -/

section SearchTree

variable {K V : Type} (comp : K → K → Bool) (P : K → Prop)

theorem RbTree.lower_bound_of_all_before (t : RbTree K V) (y : Option (K × V)) (k : K)
    (h : ∀ e ∈ t.toList, comp e.1 k = true) : RbTree.lower_bound comp t y k = y := by
  induction t generalizing y with
  | nil => rfl
  | node l key v r ihl ihr =>
    have hk : comp key k = true := h (key, v) (by simp [RbTree.toList])
    have hr : ∀ e ∈ r.toList, comp e.1 k = true :=
      fun e he => h e (by simp [RbTree.toList, he])
    simp only [RbTree.lower_bound, hk, Bool.not_true, Bool.false_eq_true, if_false]
    exact ihr y hr

theorem RbTree.insert_blocked_by_of_all_after (t : RbTree K V) (j : Option (K × V)) (k : K)
    (h : ∀ e ∈ t.toList, comp k e.1 = true) :
    RbTree.insert_blocked_by comp t j k = RbTree.insert_blocked_by comp RbTree.nil j k := by
  induction t generalizing j with
  | nil => rfl
  | node l key v r ihl ihr =>
    have hk : comp k key = true := h (key, v) (by simp [RbTree.toList])
    have hl : ∀ e ∈ l.toList, comp k e.1 = true :=
      fun e he => h e (by simp [RbTree.toList, he])
    simp only [RbTree.insert_blocked_by, hk, if_true]
    exact ihl j hl

variable (htrans : ∀ a b c, P a → P b → P c → comp a b = true → comp b c = true →
    comp a c = true)
  (hinc : ∀ a b c, P a → P b → P c → (comp a b = false ∧ comp b a = false) →
    (comp b c = false ∧ comp c b = false) → (comp a c = false ∧ comp c a = false))

include htrans hinc in
theorem swo_before_of_equiv {a b c : K} (ha : P a) (hb : P b) (hc : P c)
    (hab : comp a b = false ∧ comp b a = false) (hbc : comp b c = true) :
    comp a c = true := by
  by_contra hac
  have hac' : comp a c = false := by simpa using hac
  cases hca : comp c a with
  | true =>
    have := htrans b c a hb hc ha hbc hca
    rw [hab.2] at this
    cases this
  | false =>
    have := hinc b a c hb ha hc ⟨hab.2, hab.1⟩ ⟨hac', hca⟩
    rw [this.1] at hbc
    cases hbc

include htrans hinc in
theorem swo_after_of_equiv {a b c : K} (ha : P a) (hb : P b) (hc : P c)
    (hab : comp a b = false ∧ comp b a = false) (hca : comp c a = true) :
    comp c b = true := by
  by_contra hcb
  have hcb' : comp c b = false := by simpa using hcb
  cases hbc : comp b c with
  | true =>
    have := htrans b c a hb hc ha hbc hca
    rw [hab.2] at this
    cases this
  | false =>
    have := hinc c b a hc hb ha ⟨hcb', hbc⟩ ⟨hab.2, hab.1⟩
    rw [this.1] at hca
    cases hca

include htrans hinc in
theorem RbTree.descent_of_sorted (t : RbTree K V) (k k0 : K) (v0 : V)
    (hs : t.Sorted comp) (hP : ∀ e ∈ t.toList, P e.1) (hk : P k)
    (hmem : (k0, v0) ∈ t.toList) (heq : comp k0 k = false ∧ comp k k0 = false) :
    (∀ y, RbTree.lower_bound comp t y k = some (k0, v0)) ∧
    (∀ j, RbTree.insert_blocked_by comp t j k = some (k0, v0)) := by
  induction t with
  | nil => simp [RbTree.toList] at hmem
  | node l key v r ihl ihr =>
    unfold RbTree.Sorted at hs ihl ihr
    simp only [RbTree.toList, List.pairwise_append, List.pairwise_cons, List.mem_cons,
      forall_eq_or_imp] at hs
    obtain ⟨hsl, ⟨hkr, hsr⟩, hlr⟩ := hs
    have hPl : ∀ e ∈ l.toList, P e.1 := fun e he => hP e (by simp [RbTree.toList, he])
    have hPr : ∀ e ∈ r.toList, P e.1 := fun e he => hP e (by simp [RbTree.toList, he])
    have hPkey : P key := hP (key, v) (by simp [RbTree.toList])
    have hPk0 : P k0 := hP (k0, v0) hmem
    have heq' : comp k k0 = false ∧ comp k0 k = false := ⟨heq.2, heq.1⟩
    simp only [RbTree.toList, List.mem_append, List.mem_cons] at hmem
    rcases hmem with hl | hmid | hr
    · -- the entry is in the left subtree: the key of the node comes after `k`
      have h1 : comp k0 key = true := (hlr (k0, v0) hl).1
      have h2 : comp k key = true :=
        swo_before_of_equiv comp P htrans hinc hk hPk0 hPkey heq' h1
      have h3 : comp key k = false := by
        cases h : comp key k with
        | false => rfl
        | true =>
          have := htrans k0 key k hPk0 hPkey hk h1 h
          rw [heq.1] at this
          cases this
      obtain ⟨il, jl⟩ := ihl hsl hPl hl
      refine ⟨fun y => ?_, fun j => ?_⟩
      · simp only [RbTree.lower_bound, h3, Bool.not_false, if_true]
        exact il _
      · simp only [RbTree.insert_blocked_by, h2, if_true]
        exact jl _
    · -- the entry is the node itself
      obtain ⟨rfl, rfl⟩ := Prod.mk.inj hmid
      have hlall : ∀ e ∈ l.toList, comp e.1 k = true := fun e he =>
        swo_after_of_equiv comp P htrans hinc hPk0 hk (hPl e he) heq (hlr e he).1
      have hrall : ∀ e ∈ r.toList, comp k e.1 = true := fun e he =>
        swo_before_of_equiv comp P htrans hinc hk hPk0 (hPr e he) heq' (hkr e he)
      refine ⟨fun y => ?_, fun j => ?_⟩
      · simp only [RbTree.lower_bound, heq.1, Bool.not_false, if_true]
        exact RbTree.lower_bound_of_all_before comp l _ k hlall
      · simp only [RbTree.insert_blocked_by, heq.2, Bool.false_eq_true, if_false]
        rw [RbTree.insert_blocked_by_of_all_after comp r _ k hrall]
        simp [RbTree.insert_blocked_by, heq.1]
    · -- the entry is in the right subtree: the key of the node comes before `k`
      have h1 : comp key k0 = true := hkr (k0, v0) hr
      have h2 : comp key k = true :=
        swo_after_of_equiv comp P htrans hinc hPk0 hk hPkey heq h1
      have h3 : comp k key = false := by
        cases h : comp k key with
        | false => rfl
        | true =>
          have := htrans k key k0 hk hPkey hPk0 h h1
          rw [heq.2] at this
          cases this
      obtain ⟨ir, jr⟩ := ihr hsr hPr hr
      refine ⟨fun y => ?_, fun j => ?_⟩
      · simp only [RbTree.lower_bound, h2, Bool.not_true, Bool.false_eq_true, if_false]
        exact ir _
      · simp only [RbTree.insert_blocked_by, h3, Bool.false_eq_true, if_false]
        exact jr _

end SearchTree

/-! ## The claim on the cache lookup -/

theorem KeyConst.incomparable_trans_of_noNaN (a b c : KeyConst) (ha : a.noNaN) (hb : b.noNaN)
    (hc : c.noNaN) (hab : CompareConst a b = false ∧ CompareConst b a = false)
    (hbc : CompareConst b c = false ∧ CompareConst c b = false) :
    CompareConst a c = false ∧ CompareConst c a = false := by
  have hab' : a.incomparable b := hab
  have hbc' : b.incomparable c := hbc
  rw [KeyConst.incomparable_iff_fieldsEqual ha hb, KeyConst.fieldsEqual_iff_toExt ha hb] at hab'
  rw [KeyConst.incomparable_iff_fieldsEqual hb hc, KeyConst.fieldsEqual_iff_toExt hb hc] at hbc'
  show a.incomparable c
  rw [KeyConst.incomparable_iff_fieldsEqual ha hc, KeyConst.fieldsEqual_iff_toExt ha hc]
  obtain ⟨a1, a2, a3, a4, a5, a6, a7, a8⟩ := hab'
  obtain ⟨b1, b2, b3, b4, b5, b6, b7, b8⟩ := hbc'
  exact ⟨a1.trans b1, a2.trans b2, a3.trans b3, a4.trans b4, a5.trans b5, a6.trans b6,
    a7.trans b7, a8.trans b8⟩

end Hermes2D
